import Mathlib

/-! Verification development for `db/collection.go` (moldray/td):
a shallow embedding of the todo collection store.

Representation choices
* Go's `int64` and `int` (taken as 64 bits wide, as on amd64/arm64) are modelled
  by `Int` with an explicit two's-complement wrap `wrap64` wherever the source
  performs arithmetic or a conversion.
* `c.Todos` is a `[]*Todo`.  The entries are modelled by value, in slice order:
  the pointers of a collection are taken to be non-nil and pairwise distinct, as
  they are after decoding a JSON array of objects, and the todo handed to
  `CreateTodo` is taken to be one that is not yet in the collection.  A `*Todo`
  handed out by `Find` is the position of the entry it points to.
* A Go `string` is a sequence of bytes.  It is modelled by `GoString`: the valid
  runes and the bytes that belong to no valid UTF-8 encoding, in order, which is
  how packages `utf8`, `regexp` and `encoding/json` read a string.  Error texts
  and the clock's text, which the code builds itself, are `String`.
* The file behind `GetDBPath()` is explicit state (`Disk`); what the operating
  system, the clock and `encoding/json` do during one call is a parameter
  (`Env`, `Codec`).  `CreateStoreFileIfNeeded` receives its path, so it runs on a
  map from paths to contents (`FileSys`, `StoreEnv`).
* A Go run-time panic is an explicit outcome.
-/

namespace Td

/-! ## Machine integers -/

/-- Two's-complement wrap of an integer into the `int64` range. -/
def wrap64 (x : Int) : Int := (x + 2 ^ 63) % 2 ^ 64 - 2 ^ 63

/-- The values an `int64` can hold. -/
def isInt64 (x : Int) : Prop := -(2 ^ 63) ≤ x ∧ x < 2 ^ 63

instance (x : Int) : Decidable (isInt64 x) :=
  inferInstanceAs (Decidable (-(2 ^ 63) ≤ x ∧ x < 2 ^ 63))

/-! ## Strings -/

/-- One element of a Go string as `utf8.DecodeRuneInString` steps through it: a rune
with a valid encoding, or a byte that starts no valid encoding. -/
inductive Elem where
  | rune (c : Char)
  | invalid (b : Nat)
deriving DecidableEq, Repr

/-- A Go `string`. -/
abbrev GoString := List Elem

/-- The Go string made of the encodings of a sequence of runes. -/
def ofRunes (cs : List Char) : GoString := cs.map Elem.rune

/-- The Go string holding a text. -/
def go (s : String) : GoString := ofRunes s.data

instance : Coe String GoString := ⟨go⟩

/-- The rune read at an element: an invalid byte reads as U+FFFD. -/
def Elem.decode : Elem → Char
  | Elem.rune c => c
  | Elem.invalid _ => Char.ofNat 0xFFFD

/-- The runes read from a string, invalid bytes reading as U+FFFD. -/
def runes (s : GoString) : List Char := s.map Elem.decode

/-- The function `utf8.ValidString`. -/
def ValidString (s : GoString) : Bool :=
  s.all (fun e => match e with
    | Elem.rune _ => true
    | Elem.invalid _ => false)

/-! ## Data model -/

/-- Modelled from the spec: the `Todo` record, declared outside `collection.go`.
The four fields are the ones `collection.go` reads and writes
(`Id int64`, `Desc`, `Status`, `Modified` strings). -/
structure Todo where
  Id : Int
  Desc : GoString
  Status : GoString
  Modified : GoString
deriving DecidableEq, Repr

/-- The `Collection` struct: the slice `Todos`, in slice order. -/
structure Collection where
  Todos : List Todo
deriving DecidableEq, Repr

/-- Whether the three strings of a record are valid UTF-8. -/
def Todo.Valid (t : Todo) : Bool :=
  ValidString t.Desc && ValidString t.Status && ValidString t.Modified

/-- Whether all strings of a sequence of records are valid UTF-8. -/
def allValid (ts : List Todo) : Bool := ts.all Todo.Valid

/-- Go `error` values seen by the store. -/
inductive Err where
  /-- Result of `errors.New(msg)`. -/
  | new (msg : String)
  /-- An `os` error for which `os.IsNotExist` holds. -/
  | notExist
  /-- Any other error reported by `os` or `encoding/json`. -/
  | sys (code : Nat)
deriving DecidableEq, Repr

/-- Go run-time panics. -/
inductive Panic where
  | sliceBounds
  | indexOutOfRange
  | nilDeref
  | regexpCompile
deriving DecidableEq, Repr

/-- The file at `GetDBPath()`: `none` when no such file exists. -/
structure Disk where
  file : Option String
deriving DecidableEq, Repr

/-- What the environment does during one call: the string returned by
`time.Now().Local().String()`, an error `os.OpenFile` reports although the file
exists, and a failure of `File.Write` after a number of characters. -/
structure Env where
  now : String
  openErr : Option Err
  writeErr : Option (Nat × Err)

/-- The two `encoding/json` entry points used by the store, for `[]*Todo`.
`Decode old data` is `json.NewDecoder(file).Decode(&c.Todos)` run on a file whose
content is `data` while `c.Todos` holds `old`; it yields the new `c.Todos`. -/
structure Codec where
  MarshalIndent : List Todo → Except Err String
  Decode : List Todo → String → List Todo × Option Err

/-- Contract of `encoding/json` on this record type: decoding the text produced
for a sequence whose strings are valid UTF-8 yields that sequence, with no error.
A string that is not valid UTF-8 is outside the contract: the package writes it
with U+FFFD in place of each invalid byte. -/
def Codec.RoundTrip (J : Codec) : Prop :=
  ∀ ts data old, allValid ts = true → J.MarshalIndent ts = .ok data →
    J.Decode old data = (ts, none)

/-- Outcome of a method that may touch the disk: it returns, leaving a collection, a
disk and a result value, or it panics, leaving a disk. -/
inductive Outcome (α : Type) where
  | ret (c : Collection) (d : Disk) (val : α)
  | panic (p : Panic) (d : Disk)

/-! ## Slices -/

/-- The method `RemoveAtIndex`:
`s.Todos = append(s.Todos[:item], s.Todos[item+1:]...)`.
`s.Todos[:item]` panics for a negative `item` (and for one above the capacity);
`s.Todos[item+1:]` panics when `item+1`, computed in `int`, is negative or above
the length.  Since the capacity is at least the length, an `item` above the
capacity also fails the second test. -/
def RemoveAtIndex (c : Collection) (item : Int) : Except Panic Collection :=
  if item < 0 then .error Panic.sliceBounds
  else if wrap64 (item + 1) < 0 ∨ (c.Todos.length : Int) < wrap64 (item + 1) then
    .error Panic.sliceBounds
  else .ok { Todos := c.Todos.take item.toNat ++ c.Todos.drop (wrap64 (item + 1)).toNat }

/-! ## Load and save -/

/-- The call `os.OpenFile(GetDBPath(), flags, 0600)` without `O_CREATE`: it yields
the content of the file, or an error. -/
def osOpenFile (env : Env) (d : Disk) : Except Err String :=
  match env.openErr with
  | some e => .error e
  | none =>
    match d.file with
    | none => .error Err.notExist
    | some content => .ok content

/-- The method `RetrieveTodos`. -/
def RetrieveTodos (J : Codec) (env : Env) (c : Collection) (d : Disk) :
    Collection × Option Err :=
  match osOpenFile env d with
  | .error e => (c, some e)
  | .ok content =>
    let r := J.Decode c.Todos content
    ({ Todos := r.1 }, r.2)

/-- The call `file.Write(data)` on a file just truncated. -/
def fileWrite (env : Env) (data : String) : Disk × Option Err :=
  match env.writeErr with
  | some (n, e) => ({ file := some (String.mk (data.data.take n)) }, some e)
  | none => ({ file := some data }, none)

/-- The method `WriteTodos`: open with `O_RDWR|O_TRUNC`, marshal, write. -/
def WriteTodos (J : Codec) (env : Env) (c : Collection) (d : Disk) : Disk × Option Err :=
  match osOpenFile env d with
  | .error e => (d, some e)
  | .ok _ =>
    match J.MarshalIndent c.Todos with
    | .error e => ({ file := some "" }, some e)
    | .ok data => fileWrite env data

/-! ## Filters -/

/-- The loop
`for i := len(c.Todos) - 1; i >= 0; i-- { if cond(c.Todos[i]) { c.RemoveAtIndex(i) } }`
of `ListPendingTodos`, `ListDoneTodos` and `Search`, which differ in `cond` only.
The first argument is `i + 1`; a panic of `RemoveAtIndex` ends the loop. -/
def scanLoop (cond : Todo → Bool) : Nat → Collection → Except Panic Collection
  | 0, c => .ok c
  | i + 1, c =>
    match c.Todos[i]? with
    | none => .error Panic.indexOutOfRange
    | some todo =>
      if cond todo then (RemoveAtIndex c (i : Int)).bind (scanLoop cond i)
      else scanLoop cond i c

/-- The method `ListPendingTodos`. -/
def ListPendingTodos (c : Collection) : Except Panic Collection :=
  scanLoop (fun todo => todo.Status != go "pending") c.Todos.length c

/-- The method `ListDoneTodos`. -/
def ListDoneTodos (c : Collection) : Except Panic Collection :=
  scanLoop (fun todo => todo.Status != go "done") c.Todos.length c

/-! ## Create, find, toggle, modify, delete -/

/-- The loop of `CreateTodo` computing `highestId`. -/
def highestIdLoop : List Todo → Int → Int
  | [], highestId => highestId
  | todo :: rest, highestId =>
    highestIdLoop rest (if todo.Id > highestId then todo.Id else highestId)

/-- The method `CreateTodo`; the value is the pair `(newTodo.Id, err)`. -/
def CreateTodo (J : Codec) (env : Env) (c : Collection) (d : Disk) (newTodo : Todo) :
    Outcome (Int × Option Err) :=
  let highestId := highestIdLoop c.Todos 0
  let newTodo1 := { newTodo with Id := wrap64 (highestId + 1), Modified := go env.now }
  let c1 : Collection := { Todos := c.Todos ++ [newTodo1] }
  let w := WriteTodos J env c1 d
  .ret c1 w.1 (newTodo1.Id, w.2)

/-- The loop of `Find`: the state is `(foundedTodo, founded)`, the pointer being the
position of the entry. -/
def findLoop (id : Int) : List Todo → Nat → Option Nat × Bool → Option Nat × Bool
  | [], _, st => st
  | todo :: rest, i, st =>
    findLoop id rest (i + 1) (if id = todo.Id then (some i, true) else st)

/-- The text of the error `Find` builds with `strconv.FormatInt(id, 10)`. -/
def notFoundMsg (id : Int) : String :=
  "The todo with the id " ++ toString id ++ " was not found."

/-- The method `Find`; it has no assignment to the collection, which it returns
as it received it.  The value is the pair `(foundedTodo, err)`. -/
def Find (c : Collection) (id : Int) : Collection × Option Nat × Option Err :=
  let st := findLoop id c.Todos 0 (none, false)
  if !st.2 then (c, st.1, some (Err.new (notFoundMsg id)))
  else (c, st.1, none)

/-- The method `Toggle`; the value is the pair `(todo, err)`. -/
def Toggle (J : Codec) (env : Env) (c : Collection) (d : Disk) (id : Int) :
    Outcome (Option Nat × Option Err) :=
  match Find c id with
  | (c0, todo, some err) => .ret c0 d (todo, some err)
  | (_, none, none) => .panic Panic.nilDeref d
  | (c0, some p, none) =>
    match c0.Todos[p]? with
    | none => .panic Panic.nilDeref d
    | some t =>
      let t1 : Todo :=
        if t.Status = go "done" then { t with Status := go "pending" }
        else { t with Status := go "done" }
      let t2 : Todo := { t1 with Modified := go env.now }
      let c1 : Collection := { Todos := c0.Todos.set p t2 }
      match WriteTodos J env c1 d with
      | (d1, some _) => .ret c1 d1 (some p, some (Err.new "Todos couldn't be saved"))
      | (d1, none) => .ret c1 d1 (some p, none)

/-- The method `Modify`; the value is the pair `(todo, err)`. -/
def Modify (J : Codec) (env : Env) (c : Collection) (d : Disk) (id : Int) (desc : GoString) :
    Outcome (Option Nat × Option Err) :=
  match Find c id with
  | (c0, todo, some err) => .ret c0 d (todo, some err)
  | (_, none, none) => .panic Panic.nilDeref d
  | (c0, some p, none) =>
    match c0.Todos[p]? with
    | none => .panic Panic.nilDeref d
    | some t =>
      let t2 : Todo := { t with Desc := desc, Modified := go env.now }
      let c1 : Collection := { Todos := c0.Todos.set p t2 }
      match WriteTodos J env c1 d with
      | (d1, some _) => .ret c1 d1 (some p, some (Err.new "Todos couldn't be saved"))
      | (d1, none) => .ret c1 d1 (some p, none)

/-- The method `RemoveFinishedTodos`. -/
def RemoveFinishedTodos (J : Codec) (env : Env) (c : Collection) (d : Disk) :
    Outcome (Option Err) :=
  match ListPendingTodos c with
  | .error p => .panic p d
  | .ok c1 =>
    let w := WriteTodos J env c1 d
    .ret c1 w.1 w.2

/-- The method `DeleteTodo`: `index := int(id) - 1`, computed in `int`. -/
def DeleteTodo (J : Codec) (env : Env) (c : Collection) (d : Disk) (id : Int) :
    Outcome (Option Err) :=
  let index := wrap64 (wrap64 id - 1)
  if index < 0 then .ret c d (some (Err.new "id can not be less than 1"))
  else
    match RemoveAtIndex c index with
    | .error p => .panic p d
    | .ok c1 =>
      let w := WriteTodos J env c1 d
      .ret c1 w.1 w.2

/-! ## Search

`Search` goes through the `regexp` package.  The part of that package the method
can reach is embedded: `QuoteMeta`, the parsing of a pattern made of the flag
group `(?i)`, plain runes, backslash-escaped punctuation and `.`, and unanchored
matching of such a pattern.  Patterns using any other operator are outside this
fragment (`MustCompile` yields `none` for them, as it does for a malformed
pattern).  A pattern that is not valid UTF-8 is an error of the parser; in the
text that is searched, each byte of an invalid encoding is read as U+FFFD, as the
package states.  Case folding is the table of the `unicode` package, taken as a
parameter `fold` sending a rune to the representative of its folding orbit. -/

/-- The bytes `regexp.QuoteMeta` escapes. -/
def isMeta (c : Char) : Bool :=
  c ∈ ['\\', '.', '+', '*', '?', '(', ')', '|', '[', ']', '{', '}', '^', '$']

/-- The function `regexp.QuoteMeta`: a backslash goes before every byte of the set,
every other byte is copied, those of invalid encodings included. -/
def QuoteMeta : GoString → GoString
  | [] => []
  | Elem.rune c :: rest =>
    if isMeta c then Elem.rune '\\' :: Elem.rune c :: QuoteMeta rest
    else Elem.rune c :: QuoteMeta rest
  | Elem.invalid b :: rest => Elem.invalid b :: QuoteMeta rest

/-- One step of a compiled pattern of the fragment. -/
inductive Atom where
  /-- A literal rune. -/
  | lit (c : Char)
  /-- The operator `.`: any rune but the newline. -/
  | anyNotNL
deriving DecidableEq, Repr

/-- A compiled pattern: the case-folding flag and the sequence of steps. -/
structure Regexp where
  foldCase : Bool
  prog : List Atom
deriving DecidableEq, Repr

/-- A backslash may be followed by any ASCII rune that is neither a letter nor a
digit, which then stands for itself. -/
def isEscapable (c : Char) : Bool := decide (c.toNat < 128) && !c.isAlphanum

/-- Parsing of the body of a pattern of the fragment; a byte of an invalid encoding
is the error `ErrInvalidUTF8`. -/
def parseAtoms : GoString → Option (List Atom)
  | [] => some []
  | Elem.invalid _ :: _ => none
  | Elem.rune c :: rest =>
    if c = '\\' then
      match rest with
      | [] => none
      | Elem.invalid _ :: _ => none
      | Elem.rune e :: rest1 =>
        if isEscapable e then Option.map (fun as => Atom.lit e :: as) (parseAtoms rest1)
        else none
    else if c = '.' then Option.map (fun as => Atom.anyNotNL :: as) (parseAtoms rest)
    else if isMeta c then none
    else Option.map (fun as => Atom.lit c :: as) (parseAtoms rest)

/-- The function `regexp.MustCompile` on the fragment; `none` is its panic. -/
def MustCompile (pattern : GoString) : Option Regexp :=
  match pattern with
  | Elem.rune '(' :: Elem.rune '?' :: Elem.rune 'i' :: Elem.rune ')' :: body =>
    Option.map (fun as => { foldCase := true, prog := as }) (parseAtoms body)
  | body => Option.map (fun as => { foldCase := false, prog := as }) (parseAtoms body)

/-- Whether a rune of the text is accepted by a step. -/
def atomAccepts (fold : Char → Char) (foldCase : Bool) (a : Atom) (r : Char) : Bool :=
  match a with
  | Atom.lit c => if foldCase then fold r == fold c else r == c
  | Atom.anyNotNL => r != '\n'

/-- Whether the steps accept a start segment of the text. -/
def matchHere (fold : Char → Char) (foldCase : Bool) : List Atom → List Char → Bool
  | [], _ => true
  | _ :: _, [] => false
  | a :: as, r :: rs => atomAccepts fold foldCase a r && matchHere fold foldCase as rs

/-- Whether the steps accept a segment of the text starting anywhere. -/
def matchAnywhere (fold : Char → Char) (foldCase : Bool) (prog : List Atom) :
    List Char → Bool
  | [] => matchHere fold foldCase prog []
  | r :: rs => matchHere fold foldCase prog (r :: rs) || matchAnywhere fold foldCase prog rs

/-- The method `(*Regexp).MatchString`, on the runes read from the text. -/
def MatchString (fold : Char → Char) (re : Regexp) (s : GoString) : Bool :=
  matchAnywhere fold re.foldCase re.prog (runes s)

/-- The method `Search`. -/
def Search (fold : Char → Char) (c : Collection) (sentence : GoString) :
    Except Panic Collection :=
  let sentence1 := QuoteMeta sentence
  match MustCompile (go "(?i)" ++ sentence1) with
  | none => .error Panic.regexpCompile
  | some re => scanLoop (fun todo => !MatchString fold re todo.Desc) c.Todos.length c

/-- Folding applied to the runes of a string, its invalid bytes kept as they are. -/
def Elem.fold (fold : Char → Char) : Elem → Elem
  | Elem.rune c => Elem.rune (fold c)
  | Elem.invalid b => Elem.invalid b

/-- The description contains the text as a literal substring once letter case is
ignored: the folded text is a contiguous segment of the folded description. -/
def containsFold (fold : Char → Char) (text desc : GoString) : Prop :=
  text.map (Elem.fold fold) <:+: desc.map (Elem.fold fold)

instance (fold : Char → Char) (text desc : GoString) : Decidable (containsFold fold text desc) :=
  inferInstanceAs (Decidable (text.map (Elem.fold fold) <:+: desc.map (Elem.fold fold)))

/-- Folding of the ASCII letters, the ASCII part of the folding table. -/
def asciiFold (c : Char) : Char := c.toLower

/-! ## A reference codec

A codec that writes a sequence of records as an indented array of objects with
the keys `id`, `desc`, `status` and `modified`, and reads that layout back.  It
instantiates `Codec` with functions that can be run, and meets `Codec.RoundTrip`.
Like `encoding/json` it writes a string that is not valid UTF-8 with U+FFFD in
place of each invalid byte. -/

/-- The decimal digit of a number below ten. -/
def digitChar (n : Nat) : Char := Char.ofNat (48 + n)

/-- The number a decimal digit stands for. -/
def digitVal (c : Char) : Nat := c.toNat - 48

/-- Decimal digits of a number, least significant first; the first argument bounds
their count. -/
def natDigitsRev : Nat → Nat → List Char
  | 0, _ => []
  | fuel + 1, n =>
    digitChar (n % 10) :: (if n / 10 = 0 then [] else natDigitsRev fuel (n / 10))

/-- Decimal rendering of a natural number. -/
def renderNat (n : Nat) : List Char := (natDigitsRev (n + 1) n).reverse

/-- Decimal rendering of an integer. -/
def renderInt : Int → List Char
  | Int.ofNat n => renderNat n
  | Int.negSucc n => '-' :: renderNat (n + 1)

/-- Value of a sequence of digits given least significant first. -/
def valueRev : List Char → Nat
  | [] => 0
  | c :: cs => digitVal c + 10 * valueRev cs

/-- Reads a non-empty run of digits. -/
def readNat (s : List Char) : Option (Nat × List Char) :=
  let ds := s.takeWhile Char.isDigit
  if ds = [] then none else some (valueRev ds.reverse, s.dropWhile Char.isDigit)

/-- Reads an integer. -/
def readInt (s : List Char) : Option (Int × List Char) :=
  match s with
  | [] => none
  | c :: rest =>
    if c = '-' then Option.map (fun r => (-(r.1 : Int), r.2)) (readNat rest)
    else Option.map (fun r => ((r.1 : Int), r.2)) (readNat (c :: rest))

/-- Escaping of the quote and of the backslash inside a string. -/
def escapeChars : List Char → List Char
  | [] => []
  | c :: cs =>
    if c = '"' ∨ c = '\\' then '\\' :: c :: escapeChars cs else c :: escapeChars cs

/-- Reads an escaped string up to its closing quote. -/
def readStr : List Char → Option (List Char × List Char)
  | [] => none
  | c :: rest =>
    if c = '"' then some ([], rest)
    else if c = '\\' then
      match rest with
      | [] => none
      | e :: rest1 => Option.map (fun r => (e :: r.1, r.2)) (readStr rest1)
    else Option.map (fun r => (c :: r.1, r.2)) (readStr rest)

/-- Consumes a fixed text. -/
def expect : List Char → List Char → Option (List Char)
  | [], s => some s
  | _ :: _, [] => none
  | a :: as, b :: bs => if a = b then expect as bs else none

/-- Opening of an object, up to the value of `id`. -/
def kId : List Char := "\x7b\n    \"id\": ".data
/-- Separator before the value of `desc`. -/
def kDesc : List Char := ",\n    \"desc\": \"".data
/-- Closing quote and separator before the value of `status`. -/
def kStatus : List Char := "\",\n    \"status\": \"".data
/-- Closing quote and separator before the value of `modified`. -/
def kModified : List Char := "\",\n    \"modified\": \"".data
/-- Closing of an object. -/
def kClose : List Char := "\n  \x7d".data
/-- Opening of a non-empty array. -/
def kFirst : List Char := "[\n  ".data
/-- Separator between two objects. -/
def kNext : List Char := ",\n  ".data
/-- Closing of a non-empty array. -/
def kLast : List Char := "\n]".data
/-- The empty array. -/
def kEmpty : List Char := "[]".data

/-- Rendering of one record, as an indented object; of a string the runes read from
it are written, so an invalid byte is written as U+FFFD. -/
def renderTodo (t : Todo) : List Char :=
  kId ++ (renderInt t.Id ++ (kDesc ++ (escapeChars (runes t.Desc) ++ (kStatus ++
    (escapeChars (runes t.Status) ++ (kModified ++ (escapeChars (runes t.Modified) ++
      ('"' :: kClose))))))))

/-- Reads one record. -/
def readTodo (s : List Char) : Option (Todo × List Char) :=
  (expect kId s).bind fun s1 =>
  (readInt s1).bind fun r1 =>
  (expect kDesc r1.2).bind fun s2 =>
  (readStr s2).bind fun r2 =>
  (expect (kStatus.drop 1) r2.2).bind fun s3 =>
  (readStr s3).bind fun r3 =>
  (expect (kModified.drop 1) r3.2).bind fun s4 =>
  (readStr s4).bind fun r4 =>
  (expect kClose r4.2).bind fun s5 =>
  some (⟨r1.1, ofRunes r2.1, ofRunes r3.1, ofRunes r4.1⟩, s5)

/-- Rendering of the records after the first one, and of the closing bracket. -/
def renderItems : List Todo → List Char
  | [] => kLast
  | t :: ts => kNext ++ (renderTodo t ++ renderItems ts)

/-- Rendering of a sequence of records, as an indented array. -/
def render : List Todo → List Char
  | [] => kEmpty
  | t :: ts => kFirst ++ (renderTodo t ++ renderItems ts)

/-- Reads the records after the first one; the first argument bounds their count. -/
def readItems : Nat → List Char → Option (List Todo)
  | 0, _ => none
  | fuel + 1, s =>
    match expect kNext s with
    | some s1 =>
      (readTodo s1).bind fun r => Option.map (fun ts => r.1 :: ts) (readItems fuel r.2)
    | none => Option.map (fun _ => []) (expect kLast s)

/-- Reads a sequence of records. -/
def parse (s : List Char) : Option (List Todo) :=
  match expect kEmpty s with
  | some _ => some []
  | none =>
    (expect kFirst s).bind fun s1 =>
    (readTodo s1).bind fun r => Option.map (fun ts => r.1 :: ts) (readItems s.length r.2)

/-- The record with every invalid byte of its strings replaced by U+FFFD. -/
def Todo.sanitize (t : Todo) : Todo :=
  { t with Desc := ofRunes (runes t.Desc), Status := ofRunes (runes t.Status),
           Modified := ofRunes (runes t.Modified) }

/-- Modelled from the spec: the persisted layout, an indented array of objects with
the fields `id`, `desc`, `status` and `modified`; it depends on the field tags of
`Todo`, declared outside `collection.go`.  The codec behaves as `encoding/json`
does on `[]*Todo`, as far as a save followed by a load goes: `MarshalIndent` never
fails on this type and, as the package states, coerces every string to valid
UTF-8 by replacing its invalid bytes with U+FFFD; `Decode` reads the layout that
was written, and reports any other text as an error. -/
def refCodec : Codec where
  MarshalIndent := fun ts => .ok (String.mk (render ts))
  Decode := fun old data =>
    match parse data.data with
    | some ts => (ts, none)
    | none => (old, some (Err.sys 1))

/-! ## Reorder and swap -/

/-- The loop of `Reorder`: `todo.Id = int64(i + 1)`, the sum being computed in `int`. -/
def reorderLoop : List Todo → Nat → List Todo
  | [], _ => []
  | todo :: rest, i =>
    { todo with Id := wrap64 (wrap64 ((i : Int) + 1)) } :: reorderLoop rest (i + 1)

/-- The method `Reorder`. -/
def Reorder (J : Codec) (env : Env) (c : Collection) (d : Disk) : Outcome (Option Err) :=
  let c1 : Collection := { Todos := reorderLoop c.Todos 0 }
  let w := WriteTodos J env c1 d
  .ret c1 w.1 w.2

/-- The loop of `Swap`: the state is `(positionA, positionB)`; the value is the entries
with the ids the loop wrote, and the final state.  The `switch` tests `case idA`
before `case idB`. -/
def swapLoop (idA idB : Int) : List Todo → Nat → Nat × Nat → List Todo × (Nat × Nat)
  | [], _, st => ([], st)
  | todo :: rest, i, st =>
    if todo.Id = idA then
      ({ todo with Id := idB } :: (swapLoop idA idB rest (i + 1) (i, st.2)).1,
        (swapLoop idA idB rest (i + 1) (i, st.2)).2)
    else if todo.Id = idB then
      ({ todo with Id := idA } :: (swapLoop idA idB rest (i + 1) (st.1, i)).1,
        (swapLoop idA idB rest (i + 1) (st.1, i)).2)
    else
      (todo :: (swapLoop idA idB rest (i + 1) st).1, (swapLoop idA idB rest (i + 1) st).2)

/-- The method `Swap`.  Both position variables start at zero.  The assignment
`c.Todos[positionA], c.Todos[positionB] = c.Todos[positionB], c.Todos[positionA]`
reads both entries, an index outside the slice being a panic, and then writes
position A and position B in that order. -/
def Swap (J : Codec) (env : Env) (c : Collection) (d : Disk) (idA idB : Int) :
    Outcome (Option Err) :=
  let r := swapLoop idA idB c.Todos 0 (0, 0)
  let positionA := r.2.1
  let positionB := r.2.2
  match r.1[positionB]?, r.1[positionA]? with
  | some atB, some atA =>
    let c1 : Collection := { Todos := (r.1.set positionA atB).set positionB atA }
    let w := WriteTodos J env c1 d
    .ret c1 w.1 w.2
  | _, _ => .panic Panic.indexOutOfRange d

/-! ## Store file

`CreateStoreFileIfNeeded` takes the path as an argument, so the files are a map
from paths to contents here. -/

/-- The regular files: the content at each path, `none` where there is no file. -/
structure FileSys where
  file : String → Option String

/-- The files after the content at one path has been set. -/
def FileSys.write (fs : FileSys) (path content : String) : FileSys :=
  { file := fun p => if p = path then some content else fs.file p }

/-- What the operating system does during one call of `CreateStoreFileIfNeeded`: an
error `os.Stat` reports whatever the files are, an error of `os.Create`, and a
failure of `WriteString` after a number of characters. -/
structure StoreEnv where
  statErr : Option Err
  createErr : Option Err
  writeErr : Option (Nat × Err)

/-- Outcome of `CreateStoreFileIfNeeded`: it returns an error value, or it panics;
either way it leaves the files. -/
inductive StoreOutcome where
  | ret (fs : FileSys) (err : Option Err)
  | panic (p : Panic) (fs : FileSys)

/-- The function `os.IsNotExist`. -/
def IsNotExist (e : Err) : Bool := decide (e = Err.notExist)

/-- The call `os.Stat(path)`: the pair `(fi, err)`, where `fi` is represented by the
size in bytes it reports and is nil whenever `err` is not. -/
def osStat (env : StoreEnv) (fs : FileSys) (path : String) : Option Nat × Option Err :=
  match env.statErr with
  | some e => (none, some e)
  | none =>
    match fs.file path with
    | none => (none, some Err.notExist)
    | some content => (some content.utf8ByteSize, none)

/-- The call `fi.Size()`: a nil `fi` is a nil dereference. -/
def fiSize (fi : Option Nat) : Except Panic Nat :=
  match fi with
  | none => .error Panic.nilDeref
  | some size => .ok size

/-- The value `os.ErrInvalid`, which the methods of a nil `*os.File` return. -/
def ErrInvalid : Err := Err.new "invalid argument"

/-- The function `CreateStoreFileIfNeeded`.  The operator `||` evaluates `fi.Size()`
only when its left operand is false. -/
def CreateStoreFileIfNeeded (env : StoreEnv) (fs : FileSys) (path : String) : StoreOutcome :=
  let st := osStat env fs path
  let fi := st.1
  let err := st.2
  let cond : Except Panic Bool :=
    if (match err with | some e => IsNotExist e | none => false) then .ok true
    else (fiSize fi).map (fun size => size == 0)
  match cond with
  | .error p => .panic p fs
  | .ok true =>
    match env.createErr with
    | some _ => .ret fs (some ErrInvalid)
    | none =>
      match env.writeErr with
      | some (n, e) => .ret (fs.write path (String.mk ("[]".data.take n))) (some e)
      | none => .ret (fs.write path "[]") none
  | .ok false =>
    match err with
    | some e => .ret fs (some e)
    | none =>
      match fiSize fi with
      | .error p => .panic p fs
      | .ok size =>
        if size != 0 then .ret fs (some (Err.new "StoreAlreadyExist"))
        else .ret fs none

/-! ## Auxiliary definitions for the statements -/

/-- The entry `Toggle` leaves in place of `t`. -/
def toggled (now : String) (t : Todo) : Todo :=
  { (if t.Status = go "done" then { t with Status := go "pending" }
      else { t with Status := go "done" })
    with Modified := go now }

/-- One call among `CreateTodo`, `Toggle`, `Modify` and `DeleteTodo`, with the
environment it runs in. -/
inductive Op where
  | create (env : Env) (newTodo : Todo)
  | toggle (env : Env) (id : Int)
  | modify (env : Env) (id : Int) (desc : GoString)
  | delete (env : Env) (id : Int)

/-- Collection and disk left by an outcome that returns. -/
def Outcome.state? {α : Type} : Outcome α → Option (Collection × Disk)
  | .ret c d _ => some (c, d)
  | .panic _ _ => none

/-- State after one call, when it returns. -/
def Op.run (J : Codec) (s : Collection × Disk) : Op → Option (Collection × Disk)
  | .create env newTodo => (CreateTodo J env s.1 s.2 newTodo).state?
  | .toggle env id => (Toggle J env s.1 s.2 id).state?
  | .modify env id desc => (Modify J env s.1 s.2 id desc).state?
  | .delete env id => (DeleteTodo J env s.1 s.2 id).state?

/-- State after a sequence of calls, when all of them return. -/
def runOps (J : Codec) : List Op → Collection × Disk → Option (Collection × Disk)
  | [], s => some s
  | op :: ops, s => (op.run J s).bind (runOps J ops)

/-- Whether the texts a call hands to the store are valid UTF-8: the description
and the status of the todo given to `CreateTodo`, whose `Modified` the method
overwrites, and the description given to `Modify`. -/
def Op.textValid : Op → Bool
  | .create _ newTodo => ValidString newTodo.Desc && ValidString newTodo.Status
  | .toggle _ _ => true
  | .modify _ _ desc => ValidString desc
  | .delete _ _ => true

/-- An environment in which nothing fails. -/
def envOk : Env := { now := "2024-05-01 10:00:00 +0000 UTC", openErr := none, writeErr := none }

/-- A store file holding the empty array. -/
def diskInit : Disk := { file := some "[]" }

/-- A sample collection: one pending and one done entry. -/
def sampleTodos : Collection :=
  { Todos := [⟨1, "buy milk", "pending", "t0"⟩, ⟨2, "call Bob", "done", "t1"⟩] }

/-- A collection whose only entry carries the greatest `int64`. -/
def maxIdTodos : Collection :=
  { Todos := [⟨9223372036854775807, "last", "pending", "t0"⟩] }

/-- A collection in which the id 1 is carried twice. -/
def dupTodos : Collection :=
  { Todos := [⟨1, "buy milk", "pending", "t0"⟩, ⟨2, "call Bob", "done", "t1"⟩,
      ⟨1, "water plants", "pending", "t2"⟩] }

/-- A collection whose only entry has a status that is neither `pending` nor `done`. -/
def blockedTodos : Collection := { Todos := [⟨1, "buy milk", "blocked", "t0"⟩] }

/-- The ids of the entries, by position. -/
def ids (c : Collection) : List Int := c.Todos.map Todo.Id

/-- The exchange of the two ids that the loop of `Swap` applies to an id. -/
def swapId (idA idB x : Int) : Int :=
  if x = idA then idB else if x = idB then idA else x

/-- The entry with the id the loop of `Swap` leaves it. -/
def relabel (idA idB : Int) (t : Todo) : Todo := { t with Id := swapId idA idB t.Id }

/-- Files with an empty store file and a non-empty one. -/
def sampleFiles : FileSys :=
  { file := fun p =>
      if p = "empty.json" then some "" else if p = "td.json" then some "[]" else none }

/-- An operating system that reports no error. -/
def storeOk : StoreEnv := { statErr := none, createErr := none, writeErr := none }

/-- An operating system on which `os.Stat` is denied (the error number of `EACCES`). -/
def storeDenied : StoreEnv := { statErr := some (Err.sys 13), createErr := none, writeErr := none }

/-- A collection whose ids are the two ends of the `int64` range. -/
def endsTodos : Collection :=
  { Todos := [⟨9223372036854775807, "last", "pending", "t0"⟩,
      ⟨-9223372036854775808, "first", "pending", "t1"⟩] }

/-- A collection whose only id is negative. -/
def negativeTodos : Collection := { Todos := [⟨-5, "buy milk", "pending", "t0"⟩] }

/-! ## Lemmas -/

theorem wrap64_of_isInt64 {x : Int} (h : isInt64 x) : wrap64 x = x := by
  unfold isInt64 at h
  unfold wrap64
  omega

theorem highestIdLoop_ge (l : List Todo) (h : Int) : h ≤ highestIdLoop l h := by
  induction l generalizing h with
  | nil => simp [highestIdLoop]
  | cons t ts ih =>
    simp only [highestIdLoop]
    split
    · exact le_trans (by omega) (ih _)
    · exact ih _

theorem highestIdLoop_mem_le (l : List Todo) (h : Int) :
    ∀ t ∈ l, t.Id ≤ highestIdLoop l h := by
  induction l generalizing h with
  | nil => simp
  | cons t ts ih =>
    intro u hu
    simp only [highestIdLoop]
    rcases List.mem_cons.mp hu with rfl | hu
    · split
      · exact highestIdLoop_ge _ _
      · exact le_trans (by omega) (highestIdLoop_ge _ _)
    · exact ih _ u hu

theorem highestIdLoop_lt (l : List Todo) (h M : Int) (hh : h < M)
    (hl : ∀ t ∈ l, t.Id < M) : highestIdLoop l h < M := by
  induction l generalizing h with
  | nil => simpa [highestIdLoop]
  | cons t ts ih =>
    simp only [highestIdLoop]
    have ht := hl t (List.mem_cons_self _ _)
    have hts : ∀ u ∈ ts, u.Id < M := fun u hu => hl u (List.mem_cons_of_mem _ hu)
    split
    · exact ih _ ht hts
    · exact ih _ hh hts

/-- Removing the entry that follows `pre`. -/
theorem RemoveAtIndex_append (pre post : List Todo) (t : Todo) (k : Nat) (hk : pre.length = k)
    (hlen : ((pre ++ t :: post).length : Int) < 2 ^ 63) :
    RemoveAtIndex { Todos := pre ++ t :: post } (k : Int) = .ok { Todos := pre ++ post } := by
  subst hk
  have hl : (pre ++ t :: post).length = pre.length + post.length + 1 := by
    simp [List.length_append]; omega
  rw [hl] at hlen
  have hw : wrap64 ((pre.length : Int) + 1) = (pre.length : Int) + 1 :=
    wrap64_of_isInt64 (by unfold isInt64; omega)
  have h1 : ¬ ((pre.length : Int) < 0) := by omega
  have h2 : ¬ ((pre.length : Int) + 1 < 0 ∨
      ((pre ++ t :: post).length : Int) < (pre.length : Int) + 1) := by
    rw [hl]; omega
  have h3 : ((pre.length : Int) + 1).toNat = pre.length + 1 := by omega
  have e1 : (pre ++ t :: post).take pre.length = pre := by
    rw [List.take_append_of_le_length (le_refl _), List.take_length]
  have e2 : (pre ++ t :: post).drop (pre.length + 1) = post := by
    rw [List.drop_append_eq_append_drop, List.drop_eq_nil_of_le (by omega)]
    simp
  unfold RemoveAtIndex
  rw [hw]
  simp only [h1, h2, if_false, Int.toNat_ofNat, h3, e1, e2]

theorem RemoveAtIndex_outOfRange (c : Collection) (item : Int) (h64 : isInt64 item)
    (h : (c.Todos.length : Int) ≤ item) :
    RemoveAtIndex c item = .error Panic.sliceBounds := by
  unfold RemoveAtIndex
  unfold isInt64 at h64
  by_cases h0 : item < 0
  · simp [h0]
  · have : wrap64 (item + 1) < 0 ∨ (c.Todos.length : Int) < wrap64 (item + 1) := by
      unfold wrap64; omega
    simp [h0, this]

theorem scanLoop_append (cond : Todo → Bool) (k : Nat) :
    ∀ (pre post : List Todo), pre.length = k → ((pre ++ post).length : Int) < 2 ^ 63 →
      scanLoop cond k { Todos := pre ++ post }
        = .ok { Todos := pre.filter (fun t => !cond t) ++ post } := by
  induction k with
  | zero =>
    intro pre post hk _
    have : pre = [] := List.length_eq_zero.mp hk
    subst this
    rfl
  | succ k ih =>
    intro pre post hk hlen
    have hne : pre ≠ [] := by
      intro h; rw [h] at hk; simp at hk
    obtain ⟨pre1, t, rfl⟩ : ∃ pre1 t, pre = pre1 ++ [t] :=
      ⟨pre.dropLast, pre.getLast hne, (List.dropLast_append_getLast hne).symm⟩
    have hk1 : pre1.length = k := by simpa using hk
    have happ : pre1 ++ [t] ++ post = pre1 ++ t :: post := by simp
    have hget : (pre1 ++ t :: post)[k]? = some t := by
      rw [← hk1, List.getElem?_append_right (le_refl _)]
      simp
    rw [happ] at hlen ⊢
    rw [scanLoop]
    simp only [hget]
    by_cases hc : cond t = true
    · rw [if_pos hc, RemoveAtIndex_append pre1 post t k hk1 hlen]
      have hlen1 : ((pre1 ++ post).length : Int) < 2 ^ 63 := by
        have : (pre1 ++ t :: post).length = (pre1 ++ post).length + 1 := by
          simp [List.length_append]; omega
        omega
      show scanLoop cond k { Todos := pre1 ++ post } = _
      rw [ih pre1 post hk1 hlen1]
      simp [List.filter_append, hc]
    · rw [if_neg hc, ih pre1 (t :: post) hk1 hlen]
      have hc2 : cond t = false := by simpa using hc
      simp [List.filter_append, hc2]

theorem scanLoop_filter (cond : Todo → Bool) (c : Collection)
    (hlen : (c.Todos.length : Int) < 2 ^ 63) :
    scanLoop cond c.Todos.length c = .ok { Todos := c.Todos.filter (fun t => !cond t) } := by
  have h := scanLoop_append cond c.Todos.length c.Todos [] rfl (by simpa using hlen)
  simpa using h

theorem RemoveAtIndex_inRange (c : Collection) (item : Int) (h0 : 0 ≤ item)
    (hlt : item < c.Todos.length) (hlen : (c.Todos.length : Int) < 2 ^ 63) :
    RemoveAtIndex c item
      = .ok { Todos := c.Todos.take item.toNat ++ c.Todos.drop (item.toNat + 1) } := by
  have hw : wrap64 (item + 1) = item + 1 := wrap64_of_isInt64 (by unfold isInt64; omega)
  have h1 : ¬ (item < 0) := by omega
  have h2 : ¬ (item + 1 < 0 ∨ (c.Todos.length : Int) < item + 1) := by omega
  have h3 : (item + 1).toNat = item.toNat + 1 := by omega
  unfold RemoveAtIndex
  rw [hw]
  simp only [h1, h2, if_false, h3]

/-- The loop of `Find` either keeps its state, no entry carrying the id, or ends on the
last position that carries it. -/
theorem findLoop_spec (id : Int) (l : List Todo) :
    ∀ (i : Nat) (st : Option Nat × Bool),
      (findLoop id l i st = st ∧ ∀ t ∈ l, t.Id ≠ id) ∨
      (∃ j t, findLoop id l i st = (some (i + j), true) ∧ l[j]? = some t ∧ t.Id = id ∧
        ∀ q u, j < q → l[q]? = some u → u.Id ≠ id) := by
  induction l with
  | nil => intro i st; left; simp [findLoop]
  | cons t ts ih =>
    intro i st
    rw [findLoop]
    rcases ih (i + 1) (if id = t.Id then (some i, true) else st) with ⟨hst, hnone⟩ | ⟨j, u, hres, hu, huid, hlast⟩
    · by_cases hid : id = t.Id
      · right
        refine ⟨0, t, ?_, by simp, hid.symm, ?_⟩
        · rw [hst, if_pos hid]; rfl
        · intro q u hq hu
          cases q with
          | zero => omega
          | succ q =>
            simp only [List.getElem?_cons_succ] at hu
            exact hnone u (List.getElem?_mem hu)
      · left
        refine ⟨by rw [hst, if_neg hid], ?_⟩
        intro u hu
        rcases List.mem_cons.mp hu with rfl | hu
        · exact fun h => hid h.symm
        · exact hnone u hu
    · right
      refine ⟨j + 1, u, ?_, by simpa using hu, huid, ?_⟩
      · rw [hres]; congr 2; omega
      · intro q v hq hv
        cases q with
        | zero => omega
        | succ q =>
          simp only [List.getElem?_cons_succ] at hv
          exact hlast q v (by omega) hv

theorem findLoop_congr (id : Int) (l l1 : List Todo) (h : l.map Todo.Id = l1.map Todo.Id) :
    ∀ (i : Nat) (st : Option Nat × Bool), findLoop id l i st = findLoop id l1 i st := by
  induction l generalizing l1 with
  | nil =>
    intro i st
    have : l1 = [] := by simpa using h.symm
    subst this; rfl
  | cons t ts ih =>
    intro i st
    cases l1 with
    | nil => simp at h
    | cons t1 ts1 =>
      simp only [List.map_cons, List.cons.injEq] at h
      rw [findLoop, findLoop, h.1, ih ts1 h.2]

theorem Find_absent (c : Collection) (id : Int) (h : ∀ t ∈ c.Todos, t.Id ≠ id) :
    Find c id = (c, none, some (Err.new (notFoundMsg id))) := by
  rcases findLoop_spec id c.Todos 0 (none, false) with ⟨hst, _⟩ | ⟨j, t, _, ht, htid, _⟩
  · simp only [Find, hst]; rfl
  · exact absurd htid (h t (List.getElem?_mem ht))

theorem Find_present (c : Collection) (id : Int) (h : ∃ t ∈ c.Todos, t.Id = id) :
    ∃ p t, Find c id = (c, some p, none) ∧ c.Todos[p]? = some t ∧ t.Id = id ∧
      ∀ q u, p < q → c.Todos[q]? = some u → u.Id ≠ id := by
  rcases findLoop_spec id c.Todos 0 (none, false) with ⟨_, hnone⟩ | ⟨j, t, hres, ht, htid, hlast⟩
  · obtain ⟨t, ht, htid⟩ := h
    exact absurd htid (hnone t ht)
  · refine ⟨j, t, ?_, ht, htid, hlast⟩
    simp only [Find, hres, Nat.zero_add]; rfl

/-- What `Find` returns: an error and a nil pointer, or a pointer to an entry and no error. -/
theorem Find_cases (c : Collection) (id : Int) :
    (∃ e, Find c id = (c, none, some e)) ∨
    (∃ p t, Find c id = (c, some p, none) ∧ c.Todos[p]? = some t ∧ t.Id = id) := by
  rcases findLoop_spec id c.Todos 0 (none, false) with ⟨hst, _⟩ | ⟨j, t, hres, ht, htid, _⟩
  · left
    exact ⟨_, by simp only [Find, hst]; rfl⟩
  · right
    refine ⟨j, t, ?_, ht, htid⟩
    simp only [Find, hres, Nat.zero_add]; rfl

theorem Find_set (c : Collection) (id : Int) (p : Nat) (t : Todo)
    (hp : ∃ u, c.Todos[p]? = some u ∧ u.Id = t.Id) :
    (Find { Todos := c.Todos.set p t } id).2 = (Find c id).2 := by
  have hmap : (c.Todos.set p t).map Todo.Id = c.Todos.map Todo.Id := by
    obtain ⟨u, hu, hid⟩ := hp
    apply List.ext_getElem?
    intro n
    by_cases hn : n = p
    · subst hn
      obtain ⟨hlt, hget⟩ := List.getElem?_eq_some_iff.mp hu
      simp [List.getElem?_map, List.getElem?_set, hlt, hget, hid]
    · simp [List.getElem?_map, List.getElem?_set, Ne.symm hn]
  simp only [Find, findLoop_congr id _ _ hmap]
  split <;> rfl

theorem Toggle_ok (J : Codec) (env : Env) (c c1 : Collection) (d d1 : Disk) (id : Int)
    (r : Option Nat) (h : Toggle J env c d id = Outcome.ret c1 d1 (r, none)) :
    ∃ p t, Find c id = (c, some p, none) ∧ c.Todos[p]? = some t ∧ t.Id = id ∧ r = some p ∧
      c1.Todos = c.Todos.set p (toggled env.now t) := by
  rcases Find_cases c id with ⟨e, hf⟩ | ⟨p, t, hf, ht, htid⟩
  · simp only [Toggle, hf] at h
    simp at h
  · refine ⟨p, t, hf, ht, htid, ?_⟩
    simp only [Toggle, hf, ht] at h
    split at h
    · simp at h
    · simp only [Outcome.ret.injEq, Prod.mk.injEq] at h
      obtain ⟨hc, _, hr, _⟩ := h
      refine ⟨hr.symm, ?_⟩
      rw [← hc]
      rfl

theorem isEscapable_of_isMeta (c : Char) (h : isMeta c = true) : isEscapable c = true := by
  simp only [isMeta, List.elem_eq_mem, decide_eq_true_eq, List.mem_cons, List.mem_singleton,
    List.mem_nil_iff, or_false] at h
  rcases h with rfl | rfl | rfl | rfl | rfl | rfl | rfl | rfl | rfl | rfl | rfl | rfl | rfl | rfl <;> rfl

theorem ValidString_ofRunes (cs : List Char) : ValidString (ofRunes cs) = true := by
  simp [ValidString, ofRunes]

theorem runes_ofRunes (cs : List Char) : runes (ofRunes cs) = cs := by
  induction cs with
  | nil => rfl
  | cons c cs ih =>
    simp only [runes, ofRunes, List.map_cons, Elem.decode, List.cons.injEq, true_and] at ih ⊢
    exact ih

theorem ofRunes_runes (s : GoString) (h : ValidString s = true) : ofRunes (runes s) = s := by
  induction s with
  | nil => rfl
  | cons e rest ih =>
    cases e with
    | rune c =>
      simp only [ValidString, List.all_cons, Bool.true_and] at h
      have := ih h
      simp only [runes, ofRunes, List.map_cons, Elem.decode, List.cons.injEq, true_and] at this ⊢
      exact this
    | invalid b => simp [ValidString] at h

theorem ofRunes_injective : Function.Injective ofRunes := by
  intro a b h
  have := congrArg runes h
  rwa [runes_ofRunes, runes_ofRunes] at this

@[simp] theorem go_inj (a b : String) : go a = go b ↔ a = b := by
  constructor
  · intro h
    exact String.ext (ofRunes_injective h)
  · intro h
    rw [h]

theorem ValidString_go (s : String) : ValidString (go s) = true :=
  ValidString_ofRunes s.data

theorem parseAtoms_QuoteMeta (s : GoString) :
    parseAtoms (QuoteMeta s) = if ValidString s then some ((runes s).map Atom.lit) else none := by
  induction s with
  | nil => rfl
  | cons e rest ih =>
    cases e with
    | invalid b =>
      simp only [QuoteMeta]
      conv_lhs => rw [parseAtoms.eq_def]
      simp [ValidString]
    | rune c =>
      have hv : ValidString (Elem.rune c :: rest) = ValidString rest := by
        simp [ValidString]
      have hr : runes (Elem.rune c :: rest) = c :: runes rest := rfl
      rw [hv, hr]
      by_cases hm : isMeta c = true
      · have he := isEscapable_of_isMeta c hm
        simp only [QuoteMeta, hm, if_true]
        conv_lhs => rw [parseAtoms.eq_def]
        simp only [if_true, he, ih, List.map_cons]
        cases ValidString rest <;> simp
      · have hm2 : isMeta c = false := by simpa using hm
        have hb : c ≠ '\\' := by
          intro h; rw [h] at hm; exact hm (by decide)
        have hd : c ≠ '.' := by
          intro h; rw [h] at hm; exact hm (by decide)
        simp only [QuoteMeta, hm2, Bool.false_eq_true, if_false]
        conv_lhs => rw [parseAtoms.eq_def]
        simp only [if_neg hb, if_neg hd, ih]
        cases ValidString rest <;> simp [hm2]

theorem MustCompile_quoted (s : GoString) :
    MustCompile (go "(?i)" ++ QuoteMeta s)
      = if ValidString s then some { foldCase := true, prog := (runes s).map Atom.lit }
        else none := by
  have hdata : go "(?i)" ++ QuoteMeta s
      = Elem.rune '(' :: Elem.rune '?' :: Elem.rune 'i' :: Elem.rune ')' :: QuoteMeta s := rfl
  rw [hdata]
  unfold MustCompile
  simp only [parseAtoms_QuoteMeta]
  cases ValidString s <;> simp

theorem matchHere_lit (fold : Char → Char) (s d : List Char) :
    matchHere fold true (s.map Atom.lit) d = true ↔ s.map fold <+: d.map fold := by
  induction s generalizing d with
  | nil => simp [matchHere]
  | cons c cs ih =>
    cases d with
    | nil => simp [matchHere]
    | cons r rs =>
      simp only [List.map_cons, matchHere, atomAccepts, if_true, Bool.and_eq_true, beq_iff_eq,
        ih rs, List.cons_prefix_cons]
      constructor
      · rintro ⟨h1, h2⟩; exact ⟨h1.symm, h2⟩
      · rintro ⟨h1, h2⟩; exact ⟨h1.symm, h2⟩

theorem matchAnywhere_lit (fold : Char → Char) (s d : List Char) :
    matchAnywhere fold true (s.map Atom.lit) d = true ↔ s.map fold <:+: d.map fold := by
  induction d with
  | nil =>
    simp only [matchAnywhere, matchHere_lit, List.map_nil, List.prefix_nil, List.infix_nil]
  | cons r rs ih =>
    simp only [matchAnywhere, Bool.or_eq_true, matchHere_lit, ih, List.map_cons]
    rw [List.infix_cons_iff]

theorem map_fold_ofRunes (fold : Char → Char) (cs : List Char) :
    (ofRunes cs).map (Elem.fold fold) = ofRunes (cs.map fold) := by
  simp [ofRunes, Elem.fold, Function.comp_def]

theorem ofRunes_infix (a b : List Char) : ofRunes a <:+: ofRunes b ↔ a <:+: b := by
  constructor
  · rintro ⟨p, q, h⟩
    refine ⟨runes p, runes q, ?_⟩
    have := congrArg runes h
    rw [runes_ofRunes] at this
    rw [← this]
    have ha := runes_ofRunes a
    unfold runes at ha ⊢
    rw [List.map_append, List.map_append, ha]
  · rintro ⟨p, q, h⟩
    refine ⟨ofRunes p, ofRunes q, ?_⟩
    rw [← h]
    simp [ofRunes]

theorem MatchString_quoted (fold : Char → Char) (text desc : GoString)
    (ht : ValidString text = true) (hd : ValidString desc = true) :
    MatchString fold { foldCase := true, prog := (runes text).map Atom.lit } desc = true
      ↔ containsFold fold text desc := by
  simp only [MatchString, containsFold, matchAnywhere_lit]
  conv_rhs => rw [← ofRunes_runes text ht, ← ofRunes_runes desc hd, map_fold_ofRunes,
    map_fold_ofRunes, ofRunes_infix]

theorem expect_append (lit rest : List Char) : expect lit (lit ++ rest) = some rest := by
  induction lit with
  | nil => cases rest <;> rfl
  | cons a as ih => simp [expect, ih]

theorem digitChar_isDigit (d : Nat) (h : d < 10) : (digitChar d).isDigit = true := by
  interval_cases d <;> rfl

theorem digitVal_digitChar (d : Nat) (h : d < 10) : digitVal (digitChar d) = d := by
  interval_cases d <;> rfl

theorem natDigitsRev_spec (fuel : Nat) :
    ∀ n, n < fuel →
      (∀ c ∈ natDigitsRev fuel n, c.isDigit = true) ∧ valueRev (natDigitsRev fuel n) = n ∧
        natDigitsRev fuel n ≠ [] := by
  induction fuel with
  | zero => intro n h; omega
  | succ fuel ih =>
    intro n hn
    have hd : n % 10 < 10 := Nat.mod_lt _ (by norm_num)
    rw [natDigitsRev]
    by_cases h0 : n / 10 = 0
    · rw [if_pos h0]
      refine ⟨?_, ?_, by simp⟩
      · intro c hc
        simp only [List.mem_singleton] at hc
        rw [hc]; exact digitChar_isDigit _ hd
      · simp only [valueRev, digitVal_digitChar _ hd]
        omega
    · rw [if_neg h0]
      obtain ⟨hall, hval, _⟩ := ih (n / 10) (by omega)
      refine ⟨?_, ?_, by simp⟩
      · intro c hc
        rcases List.mem_cons.mp hc with rfl | hc
        · exact digitChar_isDigit _ hd
        · exact hall c hc
      · simp only [valueRev, digitVal_digitChar _ hd, hval]
        omega

theorem takeWhile_append_stop (p : Char → Bool) (ds rest : List Char)
    (hds : ∀ c ∈ ds, p c = true) (hrest : rest.takeWhile p = []) :
    (ds ++ rest).takeWhile p = ds ∧ (ds ++ rest).dropWhile p = rest := by
  induction ds with
  | nil =>
    refine ⟨by simpa using hrest, ?_⟩
    cases rest with
    | nil => rfl
    | cons r rs =>
      by_cases hr : p r = true
      · simp [List.takeWhile, hr] at hrest
      · simp [List.dropWhile, hr]
  | cons d ds ih =>
    have hd := hds d (List.mem_cons_self _ _)
    obtain ⟨h1, h2⟩ := ih (fun c hc => hds c (List.mem_cons_of_mem _ hc))
    simp [List.takeWhile, List.dropWhile, hd, h1, h2]

theorem renderNat_digits (n : Nat) : ∀ c ∈ renderNat n, c.isDigit = true := by
  intro c hc
  exact (natDigitsRev_spec (n + 1) n (by omega)).1 c (by simpa [renderNat] using hc)

theorem renderNat_ne_nil (n : Nat) : renderNat n ≠ [] := by
  have := (natDigitsRev_spec (n + 1) n (by omega)).2.2
  simpa [renderNat] using this

theorem readNat_renderNat (n : Nat) (rest : List Char)
    (hrest : rest.takeWhile Char.isDigit = []) :
    readNat (renderNat n ++ rest) = some (n, rest) := by
  obtain ⟨h1, h2⟩ := takeWhile_append_stop Char.isDigit (renderNat n) rest (renderNat_digits n) hrest
  have hv : valueRev (renderNat n).reverse = n := by
    have := (natDigitsRev_spec (n + 1) n (by omega)).2.1
    simpa [renderNat] using this
  simp only [readNat, h1, h2, hv, renderNat_ne_nil n, if_false]

theorem readInt_renderInt (i : Int) (rest : List Char)
    (hrest : rest.takeWhile Char.isDigit = []) :
    readInt (renderInt i ++ rest) = some (i, rest) := by
  cases i with
  | ofNat n =>
    have hne := renderNat_ne_nil n
    have hr := readNat_renderNat n rest hrest
    have hdig := renderNat_digits n
    rw [renderInt]
    cases hrn : renderNat n with
    | nil => exact absurd hrn hne
    | cons c cs =>
      rw [hrn] at hr hdig
      have hc : c ≠ '-' := by
        intro h
        have := hdig c (List.mem_cons_self _ _)
        rw [h] at this
        exact absurd this (by decide)
      simp only [List.cons_append, readInt, if_neg hc]
      simp only [List.cons_append] at hr
      rw [hr]
      rfl
  | negSucc n =>
    have hr := readNat_renderNat (n + 1) rest hrest
    simp only [renderInt, List.cons_append, readInt, if_true, hr, Option.map_some']
    rfl

theorem readStr_quote (rest : List Char) : readStr ('"' :: rest) = some ([], rest) := by
  conv_lhs => rw [readStr.eq_def]
  simp only [if_true]

theorem readStr_escaped (e : Char) (rest : List Char) :
    readStr ('\\' :: e :: rest) = Option.map (fun r => (e :: r.1, r.2)) (readStr rest) := by
  have h1 : ¬ ('\\' = '"') := by decide
  conv_lhs => rw [readStr.eq_def]
  simp only [h1, if_false, if_true]

theorem readStr_plain (c : Char) (rest : List Char) (hq : c ≠ '"') (hb : c ≠ '\\') :
    readStr (c :: rest) = Option.map (fun r => (c :: r.1, r.2)) (readStr rest) := by
  conv_lhs => rw [readStr.eq_def]
  simp only [hq, hb, if_false]

theorem readStr_escapeChars (s rest : List Char) :
    readStr (escapeChars s ++ '"' :: rest) = some (s, rest) := by
  induction s with
  | nil => exact readStr_quote rest
  | cons c cs ih =>
    by_cases hq : c = '"'
    · subst hq
      simp [escapeChars, readStr_escaped, ih]
    · by_cases hb : c = '\\'
      · subst hb
        simp [escapeChars, readStr_escaped, ih]
      · simp [escapeChars, readStr_plain, ih, hq, hb]

theorem readTodo_renderTodo (t : Todo) (rest : List Char) :
    readTodo (renderTodo t ++ rest) = some (t.sanitize, rest) := by
  have hs : kStatus = '"' :: kStatus.drop 1 := rfl
  have hm : kModified = '"' :: kModified.drop 1 := rfl
  have hd : kDesc = ',' :: kDesc.drop 1 := rfl
  have hint := readInt_renderInt t.Id (kDesc ++ (escapeChars (runes t.Desc) ++ (kStatus ++
    (escapeChars (runes t.Status) ++ (kModified ++ (escapeChars (runes t.Modified) ++
      ('"' :: (kClose ++ rest))))))))
    (by rw [hd]; rfl)
  unfold readTodo renderTodo
  simp only [List.append_assoc, List.cons_append, expect_append, Option.some_bind]
  rw [hint]
  simp only [Option.some_bind, expect_append]
  rw [hs, List.cons_append, readStr_escapeChars]
  simp only [Option.some_bind, expect_append, List.drop_one, List.tail_cons]
  rw [hm, List.cons_append, readStr_escapeChars]
  simp only [Option.some_bind, expect_append, List.drop_one, List.tail_cons]
  rw [readStr_escapeChars]
  simp only [Option.some_bind, expect_append]
  rfl

theorem length_lt_renderItems (ts : List Todo) : ts.length < (renderItems ts).length := by
  induction ts with
  | nil => decide
  | cons t ts ih =>
    have hk : kNext.length = 4 := rfl
    simp only [renderItems, List.length_append, List.length_cons, hk]
    omega

theorem readItems_renderItems (fuel : Nat) :
    ∀ ts : List Todo, ts.length < fuel →
      readItems fuel (renderItems ts) = some (ts.map Todo.sanitize) := by
  induction fuel with
  | zero => intro ts h; omega
  | succ fuel ih =>
    intro ts hlen
    cases ts with
    | nil =>
      rw [readItems]
      have h1 : expect kNext (renderItems []) = none := rfl
      have h2 : expect kLast (renderItems []) = some [] := rfl
      rw [h1]
      simp only [h2, Option.map_some', List.map_nil]
    | cons t ts =>
      rw [readItems]
      simp only [renderItems, expect_append, readTodo_renderTodo, Option.some_bind]
      rw [ih ts (by simpa using hlen)]
      rfl

theorem parse_render (ts : List Todo) : parse (render ts) = some (ts.map Todo.sanitize) := by
  cases ts with
  | nil => rfl
  | cons t ts =>
    have h1 : expect kEmpty (render (t :: ts)) = none := rfl
    have hfuel : ts.length < (render (t :: ts)).length := by
      have := length_lt_renderItems ts
      simp only [render, List.length_append]
      omega
    unfold parse
    rw [h1]
    simp only [render, expect_append, readTodo_renderTodo, Option.some_bind]
    have := readItems_renderItems _ ts hfuel
    simp only [render] at this
    rw [this]
    rfl

theorem sanitize_of_valid (t : Todo) (h : t.Valid = true) : t.sanitize = t := by
  simp only [Todo.Valid, Bool.and_eq_true] at h
  obtain ⟨⟨h1, h2⟩, h3⟩ := h
  cases t
  simp only [Todo.sanitize, Todo.mk.injEq, true_and] at *
  exact ⟨ofRunes_runes _ h1, ofRunes_runes _ h2, ofRunes_runes _ h3⟩

theorem valid_sanitize (t : Todo) : t.sanitize.Valid = true := by
  simp only [Todo.Valid, Todo.sanitize, ValidString_ofRunes, Bool.and_self]

theorem map_sanitize_of_allValid (ts : List Todo) (h : allValid ts = true) :
    ts.map Todo.sanitize = ts := by
  induction ts with
  | nil => rfl
  | cons t ts ih =>
    simp only [allValid, List.all_cons, Bool.and_eq_true] at h
    rw [List.map_cons, sanitize_of_valid t h.1, ih h.2]

theorem allValid_map_sanitize (ts : List Todo) : allValid (ts.map Todo.sanitize) = true := by
  simp only [allValid, List.all_map, List.all_eq_true, Function.comp_apply]
  intro t _
  exact valid_sanitize t

theorem refCodec_roundTrip : refCodec.RoundTrip := by
  intro ts data old hv h
  simp only [refCodec, Except.ok.injEq] at h
  subst h
  simp only [refCodec, parse_render, map_sanitize_of_allValid ts hv]

theorem WriteTodos_ok (J : Codec) (env : Env) (c : Collection) (d d1 : Disk)
    (h : WriteTodos J env c d = (d1, none)) :
    ∃ data, J.MarshalIndent c.Todos = .ok data ∧ d1 = { file := some data } := by
  unfold WriteTodos at h
  split at h
  · simp at h
  · split at h
    · simp at h
    · rename_i data hdata
      refine ⟨data, hdata, ?_⟩
      unfold fileWrite at h
      split at h
      · simp at h
      · simp only [Prod.mk.injEq, and_true] at h
        exact h.symm

theorem WriteTodos_succeeds (J : Codec) (env : Env) (c : Collection) (d : Disk) (data content : String)
    (ho : env.openErr = none) (hw : env.writeErr = none) (hd : d.file = some content)
    (hm : J.MarshalIndent c.Todos = .ok data) :
    WriteTodos J env c d = ({ file := some data }, none) := by
  simp only [WriteTodos, osOpenFile, ho, hd, hm, fileWrite, hw]

theorem RetrieveTodos_written (J : Codec) (hJ : J.RoundTrip) (env : Env) (cR : Collection)
    (ts : List Todo) (data : String) (ho : env.openErr = none) (hv : allValid ts = true)
    (hm : J.MarshalIndent ts = .ok data) :
    RetrieveTodos J env cR { file := some data } = ({ Todos := ts }, none) := by
  simp only [RetrieveTodos, osOpenFile, ho, hJ ts data cR.Todos hv hm]

theorem RetrieveTodos_ok (J : Codec) (env : Env) (cR c2 : Collection) (d : Disk)
    (h : RetrieveTodos J env cR d = (c2, none)) :
    ∃ data, d.file = some data ∧ J.Decode cR.Todos data = (c2.Todos, none) := by
  unfold RetrieveTodos osOpenFile at h
  split at h
  · rename_i e he
    simp at h
  · rename_i content hc
    split at hc
    · simp at hc
    · split at hc
      · simp at hc
      · rename_i content1 hfile
        simp only [Except.ok.injEq] at hc
        subst hc
        refine ⟨content1, hfile, ?_⟩
        simp only [Prod.mk.injEq] at h
        obtain ⟨h1, h2⟩ := h
        rw [← h1]
        exact Prod.ext rfl h2

theorem filter_status (l : List Todo) (s : GoString) :
    l.filter (fun t => !(t.Status != s)) = l.filter (fun t => decide (t.Status = s)) := by
  apply List.filter_congr
  intro t _
  by_cases h : t.Status = s <;> simp [h]

theorem ListPendingTodos_eq (c : Collection) (hlen : (c.Todos.length : Int) < 2 ^ 63) :
    ListPendingTodos c
      = .ok { Todos := c.Todos.filter (fun t => decide (t.Status = go "pending")) } := by
  rw [ListPendingTodos, scanLoop_filter _ c hlen, filter_status]

theorem ListDoneTodos_eq (c : Collection) (hlen : (c.Todos.length : Int) < 2 ^ 63) :
    ListDoneTodos c
      = .ok { Todos := c.Todos.filter (fun t => decide (t.Status = go "done")) } := by
  rw [ListDoneTodos, scanLoop_filter _ c hlen, filter_status]

theorem Search_scan (fold : Char → Char) (c : Collection) (text : GoString) :
    Search fold c text
      = if ValidString text then
          scanLoop (fun todo => !MatchString fold
            { foldCase := true, prog := (runes text).map Atom.lit } todo.Desc) c.Todos.length c
        else .error Panic.regexpCompile := by
  simp only [Search, MustCompile_quoted]
  cases ValidString text <;> simp

theorem Search_invalid (fold : Char → Char) (c : Collection) (text : GoString)
    (h : ValidString text = false) : Search fold c text = .error Panic.regexpCompile := by
  rw [Search_scan, h]
  simp

theorem Search_filter (fold : Char → Char) (c c1 : Collection) (text : GoString)
    (hlen : (c.Todos.length : Int) < 2 ^ 63) (h : Search fold c text = .ok c1) :
    ∃ keep : Todo → Bool, c1.Todos = c.Todos.filter keep := by
  rw [Search_scan] at h
  cases hv : ValidString text
  · rw [hv] at h
    simp at h
  · rw [hv, if_pos rfl, scanLoop_filter _ c hlen] at h
    simp only [Except.ok.injEq] at h
    exact ⟨_, by rw [← h]⟩

theorem Search_eq (fold : Char → Char) (c : Collection) (text : GoString)
    (hlen : (c.Todos.length : Int) < 2 ^ 63) (ht : ValidString text = true)
    (hd : ∀ t ∈ c.Todos, ValidString t.Desc = true) :
    Search fold c text
      = .ok { Todos := c.Todos.filter (fun t => decide (containsFold fold text t.Desc)) } := by
  rw [Search_scan, ht, if_pos rfl, scanLoop_filter _ c hlen]
  congr 2
  apply List.filter_congr
  intro t hmem
  by_cases h : containsFold fold text t.Desc
  · simp [h, (MatchString_quoted fold text t.Desc ht (hd t hmem)).mpr h]
  · have : MatchString fold { foldCase := true, prog := (runes text).map Atom.lit } t.Desc
        = false := by
      rw [Bool.eq_false_iff]
      exact fun hm => h ((MatchString_quoted fold text t.Desc ht (hd t hmem)).mp hm)
    simp [h, this]

/-- Without `QuoteMeta` the dot of `a.b` is an operator: the pattern accepts `axb`. -/
theorem unquoted_dot_accepts :
    (MustCompile (go "(?i)a.b")).map (fun re => MatchString asciiFold re (go "axb"))
      = some true := by
  decide

theorem swapId_involutive (idA idB x : Int) : swapId idA idB (swapId idA idB x) = x := by
  unfold swapId
  by_cases h1 : x = idA
  · subst h1
    by_cases h2 : idB = x
    · simp [h2]
    · simp [h2]
  · by_cases h2 : x = idB
    · subst h2
      simp [h1]
    · simp [h1, h2]

theorem swapId_injective (idA idB : Int) : Function.Injective (swapId idA idB) := by
  intro x y h
  have := congrArg (swapId idA idB) h
  rwa [swapId_involutive, swapId_involutive] at this

theorem swapLoop_fst (idA idB : Int) (l : List Todo) :
    ∀ (i : Nat) (st : Nat × Nat), (swapLoop idA idB l i st).1 = l.map (relabel idA idB) := by
  induction l with
  | nil => intro i st; rfl
  | cons t ts ih =>
    intro i st
    rw [swapLoop]
    by_cases h1 : t.Id = idA
    · rw [if_pos h1]
      simp only [ih, List.map_cons, relabel, swapId, if_pos h1]
    · rw [if_neg h1]
      by_cases h2 : t.Id = idB
      · rw [if_pos h2]
        simp only [ih, List.map_cons, relabel, swapId, if_neg h1, if_pos h2]
      · rw [if_neg h2]
        simp only [ih, List.map_cons, relabel, swapId, if_neg h1, if_neg h2]

/-- Position A after the loop of `Swap`: the initial value when no entry carries `idA`,
else the last position that carries it. -/
theorem swapLoop_posA (idA idB : Int) (l : List Todo) :
    ∀ (i : Nat) (st : Nat × Nat),
      ((swapLoop idA idB l i st).2.1 = st.1 ∧ ∀ t ∈ l, t.Id ≠ idA) ∨
      (∃ j t, (swapLoop idA idB l i st).2.1 = i + j ∧ l[j]? = some t ∧ t.Id = idA ∧
        ∀ q u, j < q → l[q]? = some u → u.Id ≠ idA) := by
  induction l with
  | nil => intro i st; left; simp [swapLoop]
  | cons t ts ih =>
    intro i st
    have step : ∀ st1 : Nat × Nat,
        (t.Id = idA → st1.1 = i) → (t.Id ≠ idA → st1.1 = st.1) →
        (swapLoop idA idB (t :: ts) i st).2.1 = (swapLoop idA idB ts (i + 1) st1).2.1 →
        ((swapLoop idA idB (t :: ts) i st).2.1 = st.1 ∧ ∀ u ∈ t :: ts, u.Id ≠ idA) ∨
        (∃ j u, (swapLoop idA idB (t :: ts) i st).2.1 = i + j ∧ (t :: ts)[j]? = some u ∧
          u.Id = idA ∧ ∀ q v, j < q → (t :: ts)[q]? = some v → v.Id ≠ idA) := by
      intro st1 hyes hno heq
      rcases ih (i + 1) st1 with ⟨hst, hnone⟩ | ⟨j, u, hres, hu, huid, hlast⟩
      · by_cases hA : t.Id = idA
        · right
          refine ⟨0, t, ?_, by simp, hA, ?_⟩
          · rw [heq, hst, hyes hA]; rfl
          · intro q v hq hv
            cases q with
            | zero => omega
            | succ q =>
              simp only [List.getElem?_cons_succ] at hv
              exact hnone v (List.getElem?_mem hv)
        · left
          refine ⟨by rw [heq, hst, hno hA], ?_⟩
          intro v hv
          rcases List.mem_cons.mp hv with rfl | hv
          · exact hA
          · exact hnone v hv
      · right
        refine ⟨j + 1, u, ?_, by simpa using hu, huid, ?_⟩
        · rw [heq, hres]; omega
        · intro q v hq hv
          cases q with
          | zero => omega
          | succ q =>
            simp only [List.getElem?_cons_succ] at hv
            exact hlast q v (by omega) hv
    by_cases h1 : t.Id = idA
    · exact step (i, st.2) (fun _ => rfl) (fun h => absurd h1 h) (by rw [swapLoop, if_pos h1])
    · by_cases h2 : t.Id = idB
      · exact step (st.1, i) (fun h => absurd h h1) (fun _ => rfl)
          (by rw [swapLoop, if_neg h1, if_pos h2])
      · exact step st (fun h => absurd h h1) (fun _ => rfl)
          (by rw [swapLoop, if_neg h1, if_neg h2])

/-- Position B after the loop of `Swap`: the initial value when no entry reaches
`case idB`, else the last position that does. -/
theorem swapLoop_posB (idA idB : Int) (l : List Todo) :
    ∀ (i : Nat) (st : Nat × Nat),
      ((swapLoop idA idB l i st).2.2 = st.2 ∧ ∀ t ∈ l, ¬ (t.Id ≠ idA ∧ t.Id = idB)) ∨
      (∃ j t, (swapLoop idA idB l i st).2.2 = i + j ∧ l[j]? = some t ∧
        (t.Id ≠ idA ∧ t.Id = idB) ∧
        ∀ q u, j < q → l[q]? = some u → ¬ (u.Id ≠ idA ∧ u.Id = idB)) := by
  induction l with
  | nil => intro i st; left; simp [swapLoop]
  | cons t ts ih =>
    intro i st
    have step : ∀ st1 : Nat × Nat,
        ((t.Id ≠ idA ∧ t.Id = idB) → st1.2 = i) → (¬ (t.Id ≠ idA ∧ t.Id = idB) → st1.2 = st.2) →
        (swapLoop idA idB (t :: ts) i st).2.2 = (swapLoop idA idB ts (i + 1) st1).2.2 →
        ((swapLoop idA idB (t :: ts) i st).2.2 = st.2 ∧
          ∀ u ∈ t :: ts, ¬ (u.Id ≠ idA ∧ u.Id = idB)) ∨
        (∃ j u, (swapLoop idA idB (t :: ts) i st).2.2 = i + j ∧ (t :: ts)[j]? = some u ∧
          (u.Id ≠ idA ∧ u.Id = idB) ∧
          ∀ q v, j < q → (t :: ts)[q]? = some v → ¬ (v.Id ≠ idA ∧ v.Id = idB)) := by
      intro st1 hyes hno heq
      rcases ih (i + 1) st1 with ⟨hst, hnone⟩ | ⟨j, u, hres, hu, huid, hlast⟩
      · by_cases hB : t.Id ≠ idA ∧ t.Id = idB
        · right
          refine ⟨0, t, ?_, by simp, hB, ?_⟩
          · rw [heq, hst, hyes hB]; rfl
          · intro q v hq hv
            cases q with
            | zero => omega
            | succ q =>
              simp only [List.getElem?_cons_succ] at hv
              exact hnone v (List.getElem?_mem hv)
        · left
          refine ⟨by rw [heq, hst, hno hB], ?_⟩
          intro v hv
          rcases List.mem_cons.mp hv with rfl | hv
          · exact hB
          · exact hnone v hv
      · right
        refine ⟨j + 1, u, ?_, by simpa using hu, huid, ?_⟩
        · rw [heq, hres]; omega
        · intro q v hq hv
          cases q with
          | zero => omega
          | succ q =>
            simp only [List.getElem?_cons_succ] at hv
            exact hlast q v (by omega) hv
    by_cases h1 : t.Id = idA
    · exact step (i, st.2) (fun h => absurd h1 h.1) (fun _ => rfl)
        (by rw [swapLoop, if_pos h1])
    · by_cases h2 : t.Id = idB
      · exact step (st.1, i) (fun _ => rfl) (fun h => absurd ⟨h1, h2⟩ h)
          (by rw [swapLoop, if_neg h1, if_pos h2])
      · exact step st (fun h => absurd h.2 h2) (fun _ => rfl)
          (by rw [swapLoop, if_neg h1, if_neg h2])

/-- Exchanging two entries of a list permutes it. -/
theorem set_set_perm (m : List Todo) (i j : Nat) (x y : Todo)
    (hx : m[i]? = some x) (hy : m[j]? = some y) : ((m.set i y).set j x).Perm m := by
  obtain ⟨hi, hxi⟩ := List.getElem?_eq_some_iff.mp hx
  obtain ⟨hj, hyj⟩ := List.getElem?_eq_some_iff.mp hy
  rw [List.perm_iff_count]
  intro b
  have hj1 : j < (m.set i y).length := by simpa using hj
  have hm1 : (m.set i y)[j] = y := by
    rw [List.getElem_set]
    split
    · rfl
    · exact hyj
  rw [List.count_set _ _ _ _ hj1, List.count_set _ _ _ _ hi, hm1, hxi]
  have hpos : (x == b) = true → 0 < m.count b := by
    intro h
    have hxb : x = b := by simpa using h
    rw [← hxb]
    exact List.count_pos_iff.mpr (List.getElem?_mem hx)
  cases hxb : (x == b) <;> cases hyb : (y == b)
  · simp
  · simp
  · have := hpos hxb
    simp only [if_true, Bool.false_eq_true, if_false]
    omega
  · have := hpos hxb
    simp only [if_true]
    omega

/-- In a collection with pairwise distinct ids, an id is carried at one position. -/
theorem nodup_pos_unique (l : List Todo) (hnd : (l.map Todo.Id).Nodup) (i j : Nat) (t u : Todo)
    (h1 : l[i]? = some t) (h2 : l[j]? = some u) (h : t.Id = u.Id) : i = j := by
  obtain ⟨hi, hti⟩ := List.getElem?_eq_some_iff.mp h1
  obtain ⟨hj, huj⟩ := List.getElem?_eq_some_iff.mp h2
  have hi1 : i < (l.map Todo.Id).length := by simpa using hi
  have hj1 : j < (l.map Todo.Id).length := by simpa using hj
  have : (l.map Todo.Id)[i] = (l.map Todo.Id)[j] := by
    simp only [List.getElem_map, hti, huj, h]
  exact (List.Nodup.getElem_inj_iff hnd).mp this

theorem swapLoop_posA_lt (idA idB : Int) (l : List Todo) (hne : l ≠ []) :
    (swapLoop idA idB l 0 (0, 0)).2.1 < l.length := by
  have hpos : 0 < l.length := List.length_pos.mpr hne
  rcases swapLoop_posA idA idB l 0 (0, 0) with ⟨h, _⟩ | ⟨j, t, h, ht, _⟩
  · rw [h]; exact hpos
  · rw [h, Nat.zero_add]; exact (List.getElem?_eq_some_iff.mp ht).1

theorem swapLoop_posB_lt (idA idB : Int) (l : List Todo) (hne : l ≠ []) :
    (swapLoop idA idB l 0 (0, 0)).2.2 < l.length := by
  have hpos : 0 < l.length := List.length_pos.mpr hne
  rcases swapLoop_posB idA idB l 0 (0, 0) with ⟨h, _⟩ | ⟨j, t, h, ht, _⟩
  · rw [h]; exact hpos
  · rw [h, Nat.zero_add]; exact (List.getElem?_eq_some_iff.mp ht).1

/-- What `Swap` leaves on a non-empty collection, position by position. -/
theorem Swap_nonempty (J : Codec) (env : Env) (c : Collection) (d : Disk) (idA idB : Int)
    (hne : c.Todos ≠ []) :
    ∃ c1 d1 err, Swap J env c d idA idB = Outcome.ret c1 d1 err ∧
      c1.Todos.length = c.Todos.length ∧
      ∀ q, c1.Todos[q]? =
        if q = (swapLoop idA idB c.Todos 0 (0, 0)).2.2 then
          (c.Todos[(swapLoop idA idB c.Todos 0 (0, 0)).2.1]?).map (relabel idA idB)
        else if q = (swapLoop idA idB c.Todos 0 (0, 0)).2.1 then
          (c.Todos[(swapLoop idA idB c.Todos 0 (0, 0)).2.2]?).map (relabel idA idB)
        else (c.Todos[q]?).map (relabel idA idB) := by
  have hA := swapLoop_posA_lt idA idB c.Todos hne
  have hB := swapLoop_posB_lt idA idB c.Todos hne
  generalize hpA : (swapLoop idA idB c.Todos 0 (0, 0)).2.1 = pA at hA
  generalize hpB : (swapLoop idA idB c.Todos 0 (0, 0)).2.2 = pB at hB
  have hmA : (c.Todos.map (relabel idA idB))[pA]? = some (relabel idA idB c.Todos[pA]) := by
    simp [List.getElem?_map, List.getElem?_eq_getElem hA]
  have hmB : (c.Todos.map (relabel idA idB))[pB]? = some (relabel idA idB c.Todos[pB]) := by
    simp [List.getElem?_map, List.getElem?_eq_getElem hB]
  let c1 : Collection :=
    { Todos := ((c.Todos.map (relabel idA idB)).set pA (relabel idA idB c.Todos[pB])).set pB
        (relabel idA idB c.Todos[pA]) }
  refine ⟨c1, (WriteTodos J env c1 d).1, (WriteTodos J env c1 d).2, ?_, ?_, ?_⟩
  · simp only [Swap, swapLoop_fst, hpA, hpB, hmA, hmB, c1]
  · simp [c1]
  · intro q
    simp only [c1, List.getElem?_set, List.length_set, List.length_map, List.getElem?_map]
    by_cases h1 : q = pB
    · subst h1
      simp [hB, List.getElem?_eq_getElem hA]
    · by_cases h2 : q = pA
      · subst h2
        simp [h1, Ne.symm h1, hA, List.getElem?_eq_getElem hB]
      · simp [h1, h2, Ne.symm h1, Ne.symm h2]

theorem Swap_empty (J : Codec) (env : Env) (d : Disk) (idA idB : Int) :
    Swap J env { Todos := [] } d idA idB = Outcome.panic Panic.indexOutOfRange d := rfl

/-- The ids stay pairwise distinct under the loop of `Swap`. -/
theorem nodup_relabel (idA idB : Int) (l : List Todo) (hnd : (l.map Todo.Id).Nodup) :
    ((l.map (relabel idA idB)).map Todo.Id).Nodup := by
  have : (l.map (relabel idA idB)).map Todo.Id = (l.map Todo.Id).map (swapId idA idB) := by
    simp [List.map_map, Function.comp_def, relabel]
  rw [this]
  exact hnd.map (swapId_injective idA idB)

theorem Swap_nodup (J : Codec) (env : Env) (c c1 : Collection) (d d1 : Disk) (idA idB : Int)
    (err : Option Err) (hnd : (ids c).Nodup)
    (h : Swap J env c d idA idB = Outcome.ret c1 d1 err) : (ids c1).Nodup := by
  unfold Swap at h
  simp only [swapLoop_fst] at h
  split at h
  · rename_i atB atA hB hA
    simp only [Outcome.ret.injEq] at h
    obtain ⟨hc, _, _⟩ := h
    rw [← hc]
    have hperm := set_set_perm _ _ _ atA atB hA hB
    exact ((hperm.map Todo.Id).nodup_iff).mpr (nodup_relabel idA idB c.Todos hnd)
  · simp at h

theorem wrap64_wrap64_succ (k : Nat) (h : (k : Int) + 1 < 2 ^ 63) :
    wrap64 (wrap64 ((k : Int) + 1)) = (k : Int) + 1 := by
  have h1 : wrap64 ((k : Int) + 1) = (k : Int) + 1 :=
    wrap64_of_isInt64 (by unfold isInt64; omega)
  rw [h1, h1]

theorem reorderLoop_length (l : List Todo) : ∀ i, (reorderLoop l i).length = l.length := by
  induction l with
  | nil => intro i; rfl
  | cons t ts ih => intro i; simp [reorderLoop, ih]

theorem reorderLoop_getElem? (l : List Todo) :
    ∀ (i q : Nat), ((i + l.length : Nat) : Int) < 2 ^ 63 →
      (reorderLoop l i)[q]? = (l[q]?).map (fun t => { t with Id := ((i + q : Nat) : Int) + 1 }) := by
  induction l with
  | nil => intro i q _; simp [reorderLoop]
  | cons t ts ih =>
    intro i q hlen
    simp only [List.length_cons] at hlen
    rw [reorderLoop]
    cases q with
    | zero =>
      have hw := wrap64_wrap64_succ i (by push_cast at hlen ⊢; omega)
      simp [hw]
    | succ q =>
      simp only [List.getElem?_cons_succ]
      rw [ih (i + 1) q (by push_cast at hlen ⊢; omega)]
      have : i + 1 + q = i + (q + 1) := by omega
      rw [this]

theorem reorderLoop_ids (l : List Todo) :
    ∀ i : Nat, ((i + l.length : Nat) : Int) < 2 ^ 63 →
      (reorderLoop l i).map Todo.Id = (List.range' (i + 1) l.length).map (fun k : Nat => (k : Int)) := by
  induction l with
  | nil => intro i _; rfl
  | cons t ts ih =>
    intro i hlen
    simp only [List.length_cons] at hlen
    have hw := wrap64_wrap64_succ i (by push_cast at hlen ⊢; omega)
    rw [reorderLoop]
    simp only [List.map_cons, List.length_cons, List.range'_succ, hw]
    rw [ih (i + 1) (by push_cast at hlen ⊢; omega)]
    simp

theorem reorderLoop_idem (l : List Todo) :
    ∀ i : Nat, reorderLoop (reorderLoop l i) i = reorderLoop l i := by
  induction l with
  | nil => intro i; rfl
  | cons t ts ih => intro i; simp [reorderLoop, ih]

theorem nodup_range_cast (s n : Nat) :
    ((List.range' s n).map (fun k : Nat => (k : Int))).Nodup :=
  (List.nodup_range' s n).map (fun a b h => by simpa using h)

theorem Modify_ok (J : Codec) (env : Env) (c c1 : Collection) (d d1 : Disk) (id : Int)
    (desc : GoString) (r : Option Nat)
    (h : Modify J env c d id desc = Outcome.ret c1 d1 (r, none)) :
    ∃ p t, Find c id = (c, some p, none) ∧ c.Todos[p]? = some t ∧ t.Id = id ∧ r = some p ∧
      c1.Todos = c.Todos.set p { t with Desc := desc, Modified := env.now } := by
  rcases Find_cases c id with ⟨e, hf⟩ | ⟨p, t, hf, ht, htid⟩
  · simp only [Modify, hf] at h
    simp at h
  · refine ⟨p, t, hf, ht, htid, ?_⟩
    simp only [Modify, hf, ht] at h
    split at h
    · simp at h
    · simp only [Outcome.ret.injEq, Prod.mk.injEq] at h
      obtain ⟨hc, _, hr, _⟩ := h
      refine ⟨hr.symm, ?_⟩
      rw [← hc]

/-- What `Toggle` and `Modify` leave in memory whatever the persist does. -/
theorem Toggle_ret (J : Codec) (env : Env) (c c1 : Collection) (d d1 : Disk) (id : Int)
    (v : Option Nat × Option Err) (h : Toggle J env c d id = Outcome.ret c1 d1 v) :
    c1 = c ∨ ∃ p t, c.Todos[p]? = some t ∧ c1.Todos = c.Todos.set p (toggled env.now t) := by
  rcases Find_cases c id with ⟨e, hf⟩ | ⟨p, t, hf, ht, htid⟩
  · left
    simp only [Toggle, hf, Outcome.ret.injEq] at h
    exact h.1.symm
  · right
    refine ⟨p, t, ht, ?_⟩
    simp only [Toggle, hf, ht] at h
    split at h
    · simp only [Outcome.ret.injEq] at h
      rw [← h.1]; rfl
    · simp only [Outcome.ret.injEq] at h
      rw [← h.1]; rfl

theorem Modify_ret (J : Codec) (env : Env) (c c1 : Collection) (d d1 : Disk) (id : Int)
    (desc : GoString) (v : Option Nat × Option Err)
    (h : Modify J env c d id desc = Outcome.ret c1 d1 v) :
    c1 = c ∨ ∃ p t, c.Todos[p]? = some t ∧
      c1.Todos = c.Todos.set p { t with Desc := desc, Modified := env.now } := by
  rcases Find_cases c id with ⟨e, hf⟩ | ⟨p, t, hf, ht, htid⟩
  · left
    simp only [Modify, hf, Outcome.ret.injEq] at h
    exact h.1.symm
  · right
    refine ⟨p, t, ht, ?_⟩
    simp only [Modify, hf, ht] at h
    split at h
    · simp only [Outcome.ret.injEq] at h
      rw [← h.1]
    · simp only [Outcome.ret.injEq] at h
      rw [← h.1]

/-- Replacing an entry by one with the same id keeps the ids. -/
theorem ids_set (l : List Todo) (p : Nat) (t u : Todo) (ht : l[p]? = some t) (hid : u.Id = t.Id) :
    (l.set p u).map Todo.Id = l.map Todo.Id := by
  apply List.ext_getElem?
  intro n
  obtain ⟨hlt, hget⟩ := List.getElem?_eq_some_iff.mp ht
  by_cases hn : n = p
  · subst hn
    simp [List.getElem?_map, List.getElem?_set, hlt, hget, hid]
  · simp [List.getElem?_map, List.getElem?_set, Ne.symm hn]

theorem highestIdLoop_attained (l : List Todo) :
    ∀ h : Int, highestIdLoop l h = h ∨ ∃ t ∈ l, t.Id = highestIdLoop l h := by
  induction l with
  | nil => intro h; left; rfl
  | cons t ts ih =>
    intro h
    rw [highestIdLoop]
    split
    · rcases ih t.Id with h1 | ⟨u, hu, hu1⟩
      · right; exact ⟨t, List.mem_cons_self _ _, h1.symm⟩
      · right; exact ⟨u, List.mem_cons_of_mem _ hu, hu1⟩
    · rcases ih h with h1 | ⟨u, hu, hu1⟩
      · left; exact h1
      · right; exact ⟨u, List.mem_cons_of_mem _ hu, hu1⟩

theorem utf8ByteSize_eq_zero (s : String) : s.utf8ByteSize = 0 ↔ s = "" := by
  constructor
  · intro h
    cases s with
    | mk data =>
      cases data with
      | nil => rfl
      | cons c cs =>
        simp only [String.utf8ByteSize_mk, String.utf8Len_cons] at h
        have := Char.utf8Size_pos c
        omega
  · intro h; subst h; rfl

theorem relabel_of_ne (idA idB : Int) (t : Todo) (hA : t.Id ≠ idA) (hB : t.Id ≠ idB) :
    relabel idA idB t = t := by
  simp [relabel, swapId, hA, hB]

theorem relabel_same (id : Int) (t : Todo) : relabel id id t = t := by
  by_cases h : t.Id = id
  · simp [relabel, swapId, h]
    exact congrArg (fun x => (⟨x, t.Desc, t.Status, t.Modified⟩ : Todo)) h.symm
  · simp [relabel, swapId, h]

theorem swap_posA_present (idA idB : Int) (l : List Todo) (hnd : (l.map Todo.Id).Nodup)
    (p : Nat) (t : Todo) (ht : l[p]? = some t) (hid : t.Id = idA) :
    (swapLoop idA idB l 0 (0, 0)).2.1 = p := by
  rcases swapLoop_posA idA idB l 0 (0, 0) with ⟨_, hnone⟩ | ⟨j, u, h, hu, huid, _⟩
  · exact absurd hid (hnone t (List.getElem?_mem ht))
  · rw [h, Nat.zero_add]
    exact nodup_pos_unique l hnd j p u t hu ht (huid.trans hid.symm)

theorem swap_posA_absent (idA idB : Int) (l : List Todo) (h : ∀ u ∈ l, u.Id ≠ idA) :
    (swapLoop idA idB l 0 (0, 0)).2.1 = 0 := by
  rcases swapLoop_posA idA idB l 0 (0, 0) with ⟨h0, _⟩ | ⟨j, u, _, hu, huid, _⟩
  · exact h0
  · exact absurd huid (h u (List.getElem?_mem hu))

theorem swap_posB_present (idA idB : Int) (l : List Todo) (hnd : (l.map Todo.Id).Nodup)
    (p : Nat) (t : Todo) (ht : l[p]? = some t) (hid : t.Id = idB) (hAB : idA ≠ idB) :
    (swapLoop idA idB l 0 (0, 0)).2.2 = p := by
  rcases swapLoop_posB idA idB l 0 (0, 0) with ⟨_, hnone⟩ | ⟨j, u, h, hu, huid, _⟩
  · exact absurd ⟨fun h => hAB (h.symm.trans hid), hid⟩ (hnone t (List.getElem?_mem ht))
  · rw [h, Nat.zero_add]
    exact nodup_pos_unique l hnd j p u t hu ht (huid.2.trans hid.symm)

theorem swap_posB_default (idA idB : Int) (l : List Todo)
    (h : ∀ u ∈ l, u.Id = idA ∨ u.Id ≠ idB) :
    (swapLoop idA idB l 0 (0, 0)).2.2 = 0 := by
  rcases swapLoop_posB idA idB l 0 (0, 0) with ⟨h0, _⟩ | ⟨j, u, _, hu, huid, _⟩
  · exact h0
  · rcases h u (List.getElem?_mem hu) with h1 | h1
    · exact absurd h1 huid.1
    · exact absurd huid.2 h1

theorem ne_nil_of_getElem? (l : List Todo) (p : Nat) (t : Todo) (h : l[p]? = some t) : l ≠ [] := by
  intro hl; rw [hl] at h; simp at h

/-- `Swap(id, id)` on a collection with pairwise distinct ids exchanges the entry that
carries the id with the entry at position 0. -/
theorem Swap_same_id (J : Codec) (env : Env) (c : Collection) (d : Disk) (id : Int) (p : Nat)
    (t : Todo) (hnd : (ids c).Nodup) (ht : c.Todos[p]? = some t) (hid : t.Id = id) :
    ∃ c1 d1 err, Swap J env c d id id = Outcome.ret c1 d1 err ∧
      c1.Todos[0]? = some t ∧ c1.Todos[p]? = c.Todos[0]? ∧
      ∀ q, q ≠ 0 → q ≠ p → c1.Todos[q]? = c.Todos[q]? := by
  obtain ⟨c1, d1, err, hs, _, hq⟩ := Swap_nonempty J env c d id id (ne_nil_of_getElem? _ p t ht)
  have hposA := swap_posA_present id id c.Todos hnd p t ht hid
  have hposB := swap_posB_default id id c.Todos (fun u _ => by
    by_cases h : u.Id = id
    · exact Or.inl h
    · exact Or.inr h)
  rw [hposA, hposB] at hq
  have hmap : ∀ o : Option Todo, o.map (relabel id id) = o := by
    intro o; cases o <;> simp [relabel_same]
  simp only [hmap] at hq
  refine ⟨c1, d1, err, hs, ?_, ?_, ?_⟩
  · rw [hq 0, if_pos rfl, ht]
  · by_cases hp : p = 0
    · subst hp; rw [hq 0, if_pos rfl]
    · rw [hq p, if_neg hp, if_pos rfl]
  · intro q h0 hp
    rw [hq q, if_neg h0, if_neg hp]

theorem wrap64_isInt64 (x : Int) : isInt64 (wrap64 x) := by
  unfold isInt64 wrap64
  omega

/-- An entry removed by `RemoveAtIndex` leaves a sublist. -/
theorem RemoveAtIndex_sublist (c c1 : Collection) (item : Int) (h64 : isInt64 item)
    (h : RemoveAtIndex c item = .ok c1) : c1.Todos.Sublist c.Todos := by
  unfold RemoveAtIndex at h
  unfold isInt64 at h64
  split at h
  · simp at h
  · split at h
    · simp at h
    · rename_i h0 hw
      have hw1 : wrap64 (item + 1) = item + 1 := by
        by_cases hlt : item + 1 < 2 ^ 63
        · exact wrap64_of_isInt64 (by unfold isInt64; omega)
        · exfalso
          apply hw
          left
          unfold wrap64
          omega
      simp only [Except.ok.injEq] at h
      rw [← h, hw1]
      have e : (item + 1).toNat = item.toNat + 1 := by omega
      rw [e, ← List.eraseIdx_eq_take_drop_succ]
      exact List.eraseIdx_sublist _ _

theorem nodup_ids_sublist (l l1 : List Todo) (h : l1.Sublist l) (hnd : (l.map Todo.Id).Nodup) :
    (l1.map Todo.Id).Nodup :=
  hnd.sublist (h.map Todo.Id)

theorem CreateStoreFileIfNeeded_stat_error (env : StoreEnv) (fs : FileSys) (path : String)
    (e : Err) (h : env.statErr = some e) (hne : e ≠ Err.notExist) :
    CreateStoreFileIfNeeded env fs path = StoreOutcome.panic Panic.nilDeref fs := by
  have hn : IsNotExist e = false := by simp [IsNotExist, hne]
  simp [CreateStoreFileIfNeeded, osStat, h, hn, fiSize, Except.map]

theorem readTodo_valid (s : List Char) (r : Todo × List Char)
    (h : readTodo s = some r) : r.1.Valid = true := by
  unfold readTodo at h
  simp only [Option.bind_eq_some] at h
  obtain ⟨_, _, _, _, _, _, _, _, _, _, _, _, _, _, _, _, _, _, h⟩ := h
  simp only [Option.some.injEq] at h
  rw [← h]
  simp only [Todo.Valid, ValidString_ofRunes, Bool.and_self]

theorem readItems_valid (fuel : Nat) :
    ∀ (s : List Char) (ts : List Todo), readItems fuel s = some ts → allValid ts = true := by
  induction fuel with
  | zero => intro s ts h; simp [readItems] at h
  | succ fuel ih =>
    intro s ts h
    rw [readItems] at h
    split at h
    · simp only [Option.bind_eq_some, Option.map_eq_some'] at h
      obtain ⟨r, hr, ts1, hts1, rfl⟩ := h
      simp only [allValid, List.all_cons, Bool.and_eq_true]
      exact ⟨readTodo_valid _ r hr, ih _ ts1 hts1⟩
    · simp only [Option.map_eq_some'] at h
      obtain ⟨_, _, rfl⟩ := h
      rfl

theorem parse_valid (s : List Char) (ts : List Todo) (h : parse s = some ts) :
    allValid ts = true := by
  unfold parse at h
  split at h
  · simp only [Option.some.injEq] at h
    rw [← h]; rfl
  · simp only [Option.bind_eq_some, Option.map_eq_some'] at h
    obtain ⟨_, _, r, hr, ts1, hts1, rfl⟩ := h
    simp only [allValid, List.all_cons, Bool.and_eq_true]
    exact ⟨readTodo_valid _ r hr, readItems_valid _ _ ts1 hts1⟩

theorem refCodec_decode (old ts : List Todo) (data : String)
    (h : refCodec.Decode old data = (ts, none)) : parse data.data = some ts := by
  simp only [refCodec] at h
  split at h
  · rename_i ts1 hp
    simp only [Prod.mk.injEq, and_true] at h
    rw [hp, h]
  · simp at h

theorem allValid_set (l : List Todo) (p : Nat) (t : Todo) (hl : allValid l = true)
    (ht : t.Valid = true) : allValid (l.set p t) = true := by
  simp only [allValid, List.all_eq_true] at hl ⊢
  intro u hu
  rcases List.mem_or_eq_of_mem_set hu with h | h
  · exact hl u h
  · rw [h]; exact ht

theorem allValid_sublist (l l1 : List Todo) (h : l1.Sublist l) (hl : allValid l = true) :
    allValid l1 = true := by
  simp only [allValid, List.all_eq_true] at hl ⊢
  intro u hu
  exact hl u (h.subset hu)

theorem allValid_getElem? (l : List Todo) (p : Nat) (t : Todo) (hl : allValid l = true)
    (ht : l[p]? = some t) : t.Valid = true := by
  simp only [allValid, List.all_eq_true] at hl
  exact hl t (List.getElem?_mem ht)

theorem toggled_valid (now : String) (t : Todo) (h : t.Valid = true) :
    (toggled now t).Valid = true := by
  simp only [Todo.Valid, Bool.and_eq_true] at h ⊢
  unfold toggled
  split
  · exact ⟨⟨h.1.1, ValidString_go _⟩, ValidString_go _⟩
  · exact ⟨⟨h.1.1, ValidString_go _⟩, ValidString_go _⟩

theorem Op_run_valid (J : Codec) (s s1 : Collection × Disk) (op : Op)
    (hop : op.textValid = true) (hs : allValid s.1.Todos = true)
    (h : op.run J s = some s1) : allValid s1.1.Todos = true := by
  cases op with
  | create env newTodo =>
    simp only [Op.textValid, Bool.and_eq_true] at hop
    simp only [Op.run, CreateTodo, Outcome.state?, Option.some.injEq] at h
    rw [← h]
    simp only [allValid, List.all_append, List.all_cons, List.all_nil, Bool.and_true,
      Bool.and_eq_true]
    refine ⟨hs, ?_⟩
    simp only [Todo.Valid, Bool.and_eq_true]
    exact ⟨⟨hop.1, hop.2⟩, ValidString_go _⟩
  | toggle env id =>
    simp only [Op.run] at h
    cases ho : Toggle J env s.1 s.2 id with
    | panic p d => rw [ho] at h; simp [Outcome.state?] at h
    | ret c1 d1 v =>
      rw [ho] at h
      simp only [Outcome.state?, Option.some.injEq] at h
      rw [← h]
      rcases Toggle_ret J env s.1 c1 s.2 d1 id v ho with rfl | ⟨p, t, ht, hc1⟩
      · exact hs
      · show allValid c1.Todos = true
        rw [hc1]
        exact allValid_set _ _ _ hs (toggled_valid _ _ (allValid_getElem? _ p t hs ht))
  | modify env id desc =>
    simp only [Op.textValid] at hop
    simp only [Op.run] at h
    cases ho : Modify J env s.1 s.2 id desc with
    | panic p d => rw [ho] at h; simp [Outcome.state?] at h
    | ret c1 d1 v =>
      rw [ho] at h
      simp only [Outcome.state?, Option.some.injEq] at h
      rw [← h]
      rcases Modify_ret J env s.1 c1 s.2 d1 id desc v ho with rfl | ⟨p, t, ht, hc1⟩
      · exact hs
      · show allValid c1.Todos = true
        rw [hc1]
        have htv := allValid_getElem? _ p t hs ht
        simp only [Todo.Valid, Bool.and_eq_true] at htv
        refine allValid_set _ _ _ hs ?_
        simp only [Todo.Valid, Bool.and_eq_true]
        exact ⟨⟨hop, htv.1.2⟩, ValidString_go _⟩
  | delete env id =>
    simp only [Op.run] at h
    cases ho : DeleteTodo J env s.1 s.2 id with
    | panic p d => rw [ho] at h; simp [Outcome.state?] at h
    | ret c1 d1 v =>
      rw [ho] at h
      simp only [Outcome.state?, Option.some.injEq] at h
      rw [← h]
      show allValid c1.Todos = true
      unfold DeleteTodo at ho
      simp only at ho
      split at ho
      · simp only [Outcome.ret.injEq] at ho
        rw [← ho.1]; exact hs
      · split at ho
        · simp at ho
        · rename_i c2 hrm
          simp only [Outcome.ret.injEq] at ho
          rw [← ho.1]
          exact allValid_sublist _ _ (RemoveAtIndex_sublist s.1 c2 _ (wrap64_isInt64 _) hrm) hs

theorem runOps_valid (J : Codec) (ops : List Op) :
    ∀ s s1 : Collection × Disk, (∀ op ∈ ops, op.textValid = true) →
      allValid s.1.Todos = true → runOps J ops s = some s1 → allValid s1.1.Todos = true := by
  induction ops with
  | nil =>
    intro s s1 _ hs h
    simp only [runOps, Option.some.injEq] at h
    rw [← h]; exact hs
  | cons op ops ih =>
    intro s s1 hops hs h
    simp only [runOps, Option.bind_eq_some] at h
    obtain ⟨s2, h2, h3⟩ := h
    exact ih s2 s1 (fun o ho => hops o (List.mem_cons_of_mem _ ho))
      (Op_run_valid J s s2 op (hops op (List.mem_cons_self _ _)) hs h2) h3

theorem refCodec_write_then_retrieve (envW envR : Env) (c cR c2 : Collection) (d d1 : Disk)
    (hw : WriteTodos refCodec envW c d = (d1, none))
    (hr : RetrieveTodos refCodec envR cR d1 = (c2, none)) :
    c2.Todos = c.Todos.map Todo.sanitize := by
  obtain ⟨data, hm, hd1⟩ := WriteTodos_ok refCodec envW c d d1 hw
  obtain ⟨data1, hfile, hdec⟩ := RetrieveTodos_ok refCodec envR cR c2 d1 hr
  rw [hd1] at hfile
  simp only [Option.some.injEq] at hfile
  subst hfile
  simp only [refCodec, Except.ok.injEq] at hm
  subst hm
  have := refCodec_decode _ _ _ hdec
  rw [parse_render] at this
  exact (Option.some.inj this).symm

/-! ## The claims -/

/-- C1, as amended: for every collection whose ids are all below the greatest `int64`
and every new todo, `CreateTodo` appends the todo with an id that it also returns;
that id is strictly greater than the id of every entry already in the collection,
and it is 1 when the collection was empty. -/
theorem CreateTodo_id_above_existing (J : Codec) (env : Env) (c : Collection) (d : Disk)
    (newTodo : Todo) (hroom : ∀ t ∈ c.Todos, t.Id < 2 ^ 63 - 1) :
    ∃ d1 id err,
      CreateTodo J env c d newTodo
        = Outcome.ret { Todos := c.Todos ++ [{ newTodo with Id := id, Modified := env.now }] }
            d1 (id, err)
      ∧ (∀ t ∈ c.Todos, t.Id < id) ∧ (c.Todos = [] → id = 1) := by
  have hge := highestIdLoop_ge c.Todos 0
  have hlt := highestIdLoop_lt c.Todos 0 (2 ^ 63 - 1) (by norm_num) hroom
  have hw : wrap64 (highestIdLoop c.Todos 0 + 1) = highestIdLoop c.Todos 0 + 1 :=
    wrap64_of_isInt64 (by unfold isInt64; omega)
  let c1 : Collection :=
    { Todos := c.Todos ++ [{ newTodo with Id := highestIdLoop c.Todos 0 + 1, Modified := env.now }] }
  refine ⟨(WriteTodos J env c1 d).1, highestIdLoop c.Todos 0 + 1, (WriteTodos J env c1 d).2,
    ?_, ?_, ?_⟩
  · simp only [CreateTodo, hw, c1]
  · intro t ht
    have := highestIdLoop_mem_le c.Todos 0 t ht
    omega
  · intro h
    simp [h, highestIdLoop]

/-- C1, instance of the amended statement on the sample collection. -/
theorem CreateTodo_id_above_existing_witness :
    ∃ d1 id err,
      CreateTodo refCodec envOk sampleTodos diskInit ⟨0, "water plants", "pending", ""⟩
        = Outcome.ret
            { Todos := sampleTodos.Todos ++
                [{ (⟨0, "water plants", "pending", ""⟩ : Todo) with Id := id, Modified := envOk.now }] }
            d1 (id, err)
      ∧ (∀ t ∈ sampleTodos.Todos, t.Id < id) ∧ (sampleTodos.Todos = [] → id = 1) :=
  CreateTodo_id_above_existing refCodec envOk sampleTodos diskInit
    ⟨0, "water plants", "pending", ""⟩ (by decide)

/-- C1, counterexample to the statement as written: all ids of the collection are
`int64` values, one of them is the greatest `int64`, and `CreateTodo` returns the
least `int64`, which is not greater than that id. -/
theorem CreateTodo_id_wraps_at_max :
    (∀ t ∈ maxIdTodos.Todos, isInt64 t.Id) ∧
    ∃ c1 d1 id err,
      CreateTodo refCodec envOk maxIdTodos diskInit ⟨0, "water plants", "pending", ""⟩
        = Outcome.ret c1 d1 (id, err) ∧
      id = -9223372036854775808 ∧ ∃ t ∈ maxIdTodos.Todos, ¬ t.Id < id :=
  ⟨by decide, _, _, _, _, rfl, rfl, ⟨9223372036854775807, "last", "pending", "t0"⟩,
    by simp [maxIdTodos], by decide⟩

/-- C2, the code at the failing input: for the least `int64` the subtraction
`int(id) - 1` wraps to the greatest `int`, the test `index < 0` is passed, and
`DeleteTodo` panics in `RemoveAtIndex` instead of returning the error; the file
is left as it was. -/
theorem DeleteTodo_min_int64_panics (J : Codec) (env : Env) (c : Collection) (d : Disk) :
    DeleteTodo J env c d (-9223372036854775808) = Outcome.panic Panic.sliceBounds d := by
  have h1 : wrap64 (wrap64 (-9223372036854775808) - 1) = 9223372036854775807 := by decide
  have h2 : wrap64 (9223372036854775807 + 1) = -9223372036854775808 := by decide
  simp only [DeleteTodo, h1, RemoveAtIndex, h2]
  simp

/-- For every other id below 1, `DeleteTodo` returns the error and leaves the
collection and the file as they were. -/
theorem DeleteTodo_below_one (J : Codec) (env : Env) (c : Collection) (d : Disk) (id : Int)
    (hlo : -(2 ^ 63) < id) (hhi : id ≤ 0) :
    DeleteTodo J env c d id = Outcome.ret c d (some (Err.new "id can not be less than 1")) := by
  have hw1 : wrap64 id = id := wrap64_of_isInt64 (by unfold isInt64; omega)
  have hw2 : wrap64 (id - 1) = id - 1 := wrap64_of_isInt64 (by unfold isInt64; omega)
  have : id - 1 < 0 := by omega
  simp only [DeleteTodo, hw1, hw2, this, if_true]

/-- C3, as amended: when two consecutive calls of `Toggle(id)` both return without
error (the id is resolved by `Find` and both persists succeed), both act on the
entry `Find` resolves; if its status was `pending` or `done`, its status after the
second call equals its status before the first, and a pending entry goes
pending, done, pending. -/
theorem Toggle_twice_restores_status (J : Codec) (env1 env2 : Env) (c c1 c2 : Collection)
    (d d1 d2 : Disk) (id : Int) (r1 r2 : Option Nat)
    (h1 : Toggle J env1 c d id = Outcome.ret c1 d1 (r1, none))
    (h2 : Toggle J env2 c1 d1 id = Outcome.ret c2 d2 (r2, none)) :
    ∃ p t t1 t2, Find c id = (c, some p, none) ∧ r1 = some p ∧ r2 = some p ∧
      c.Todos[p]? = some t ∧ c1.Todos[p]? = some t1 ∧ c2.Todos[p]? = some t2 ∧
      ((t.Status = "pending" ∨ t.Status = "done") → t2.Status = t.Status) ∧
      (t.Status = "pending" → t1.Status = "done" ∧ t2.Status = "pending") := by
  obtain ⟨p, t, hf, ht, htid, hr1, hc1⟩ := Toggle_ok J env1 c c1 d d1 id r1 h1
  obtain ⟨p2, t1, hf2, ht1, _, hr2, hc2⟩ := Toggle_ok J env2 c1 c2 d1 d2 id r2 h2
  have hplt : p < c.Todos.length := (List.getElem?_eq_some_iff.mp ht).1
  have hfs := Find_set c id p (toggled env1.now t) ⟨t, ht, by
    simp only [toggled]; split <;> rfl⟩
  have hc1eq : c1 = { Todos := c.Todos.set p (toggled env1.now t) } := by
    cases c1; simp only [Collection.mk.injEq]; exact hc1
  rw [← hc1eq, hf2, hf] at hfs
  have hpp : p2 = p := by simpa using hfs
  subst hpp
  have ht1eq : t1 = toggled env1.now t := by
    rw [hc1, List.getElem?_set_self hplt] at ht1
    exact (Option.some.inj ht1).symm
  have hplt1 : p2 < c1.Todos.length := (List.getElem?_eq_some_iff.mp ht1).1
  refine ⟨p2, t, t1, toggled env2.now t1, hf, hr1, hr2, ht, ht1, ?_, ?_, ?_⟩
  · rw [hc2, List.getElem?_set_self hplt1]
  · rintro (hs | hs) <;> simp [ht1eq, toggled, hs]
  · intro hs
    simp [ht1eq, toggled, hs]

/-- C3, instance of the amended statement: the pending entry 1 of the sample
collection toggled twice. -/
theorem Toggle_twice_restores_status_witness :
    ∃ p t t1 t2, Find sampleTodos 1 = (sampleTodos, some p, none) ∧
      some 0 = some p ∧ some 0 = some p ∧
      sampleTodos.Todos[p]? = some t ∧
      (sampleTodos.Todos.set 0 (toggled envOk.now ⟨1, "buy milk", "pending", "t0"⟩))[p]? = some t1 ∧
      (sampleTodos.Todos.set 0
        (toggled envOk.now (toggled envOk.now ⟨1, "buy milk", "pending", "t0"⟩)))[p]? = some t2 ∧
      ((t.Status = "pending" ∨ t.Status = "done") → t2.Status = t.Status) ∧
      (t.Status = "pending" → t1.Status = "done" ∧ t2.Status = "pending") :=
  Toggle_twice_restores_status refCodec envOk envOk sampleTodos
    { Todos := sampleTodos.Todos.set 0 (toggled envOk.now ⟨1, "buy milk", "pending", "t0"⟩) }
    { Todos := sampleTodos.Todos.set 0
        (toggled envOk.now (toggled envOk.now ⟨1, "buy milk", "pending", "t0"⟩)) }
    diskInit
    { file := some (String.mk (render
        (sampleTodos.Todos.set 0 (toggled envOk.now ⟨1, "buy milk", "pending", "t0"⟩)))) }
    { file := some (String.mk (render (sampleTodos.Todos.set 0
        (toggled envOk.now (toggled envOk.now ⟨1, "buy milk", "pending", "t0"⟩))))) }
    1 (some 0) (some 0) rfl rfl

/-- C3, counterexample to the statement as written: the id is resolved, both calls of
`Toggle` return without error, and the entry, whose status was `blocked`, ends
with status `pending`. -/
theorem Toggle_twice_changes_other_status :
    ∃ c1 d1 c2 d2 p t t2,
      Toggle refCodec envOk blockedTodos diskInit 1 = Outcome.ret c1 d1 (some p, none) ∧
      Toggle refCodec envOk c1 d1 1 = Outcome.ret c2 d2 (some p, none) ∧
      blockedTodos.Todos[p]? = some t ∧ c2.Todos[p]? = some t2 ∧
      t.Status = "blocked" ∧ t2.Status = "pending" ∧ t2.Status ≠ t.Status :=
  ⟨_, _, _, _, 0, _, _, rfl, rfl, rfl, rfl, rfl, rfl, by decide⟩

/-- C4: for every collection (of a length an `int` can hold), `ListPendingTodos`
followed by `ListDoneTodos` returns and leaves the in-memory sequence empty. -/
theorem ListPending_then_ListDone_empty (c : Collection)
    (hlen : (c.Todos.length : Int) < 2 ^ 63) :
    (ListPendingTodos c).bind ListDoneTodos = .ok { Todos := [] } := by
  rw [ListPendingTodos_eq c hlen]
  have hle : (c.Todos.filter (fun t => decide (t.Status = go "pending"))).length
      ≤ c.Todos.length :=
    List.length_filter_le _ _
  have hlen1 : (({ Todos := c.Todos.filter (fun t => decide (t.Status = go "pending")) } :
      Collection).Todos.length : Int) < 2 ^ 63 := by
    simp only
    omega
  show ListDoneTodos _ = _
  rw [ListDoneTodos_eq _ hlen1]
  congr 2
  rw [List.filter_filter]
  apply List.filter_eq_nil_iff.mpr
  intro t _
  by_cases h : t.Status = go "pending"
  · simp [h]
  · simp [h]

/-- C4, instance on the sample collection. -/
theorem ListPending_then_ListDone_empty_witness :
    (ListPendingTodos sampleTodos).bind ListDoneTodos = .ok { Todos := [] } :=
  ListPending_then_ListDone_empty sampleTodos (by decide)

/-- C5, as amended: for every collection whose descriptions are valid UTF-8 and every
search text that is valid UTF-8, `Search(text)` returns and leaves exactly the
entries whose description contains the text as a literal substring when letter
case is ignored, in their original order; in particular, for a folding that
identifies `A` with `a` and `B` with `b` and separates `x` from the dot,
`Search("a.b")` removes an entry described `axb` and keeps one described `xA.By`. -/
theorem Search_keeps_literal_matches (fold : Char → Char) (c : Collection) (text : GoString)
    (hlen : (c.Todos.length : Int) < 2 ^ 63)
    (htext : ValidString text = true)
    (hdesc : ∀ t ∈ c.Todos, ValidString t.Desc = true) :
    Search fold c text
      = .ok { Todos := c.Todos.filter (fun t => decide (containsFold fold text t.Desc)) }
    ∧ (fold 'A' = fold 'a' → fold 'B' = fold 'b' → fold 'x' ≠ fold '.' →
        ∀ t1 t2 : Todo, t1.Desc = go "axb" → t2.Desc = go "xA.By" →
          Search fold { Todos := [t1, t2] } (go "a.b") = .ok { Todos := [t2] }) := by
  refine ⟨Search_eq fold c text hlen htext hdesc, ?_⟩
  intro hA hB hx t1 t2 h1 h2
  have hv : ∀ t ∈ ({ Todos := [t1, t2] } : Collection).Todos, ValidString t.Desc = true := by
    intro t ht
    simp only [List.mem_cons, List.mem_singleton, List.mem_nil_iff, or_false] at ht
    rcases ht with rfl | rfl
    · rw [h1]; exact ValidString_go _
    · rw [h2]; exact ValidString_go _
  rw [Search_eq fold _ _ (by norm_num) (ValidString_go _) hv]
  have n1 : ¬ containsFold fold (go "a.b") t1.Desc := by
    rw [h1]
    intro h
    have hl : ((go "a.b").map (Elem.fold fold)).length
        = ((go "axb").map (Elem.fold fold)).length := rfl
    have heq := List.IsInfix.eq_of_length h hl
    simp only [go, ofRunes, String.data, List.map_cons, List.map_nil, Elem.fold,
      List.cons.injEq, Elem.rune.injEq, and_true] at heq
    exact hx heq.2.symm
  have n2 : containsFold fold (go "a.b") t2.Desc := by
    rw [h2]
    refine ⟨[Elem.rune (fold 'x')], [Elem.rune (fold 'y')], ?_⟩
    simp [go, ofRunes, Elem.fold, hA, hB]
  simp [n1, n2]

/-- C5, instance of the amended statement with the folding of the ASCII letters: the
search text `MILK` on the sample collection, and the search text `a.b` on the
descriptions `axb` and `xA.By`. -/
theorem Search_keeps_literal_matches_witness :
    Search asciiFold sampleTodos (go "MILK")
        = .ok { Todos := [⟨1, "buy milk", "pending", "t0"⟩] }
    ∧ Search asciiFold { Todos := [⟨1, "axb", "pending", "t0"⟩, ⟨2, "xA.By", "done", "t1"⟩] }
          (go "a.b")
        = .ok { Todos := [⟨2, "xA.By", "done", "t1"⟩] } :=
  ⟨(Search_keeps_literal_matches asciiFold sampleTodos (go "MILK") (by decide) (by decide)
      (by decide)).1.trans
      (congrArg (fun ts => Except.ok (Collection.mk ts)) (by decide)),
    (Search_keeps_literal_matches asciiFold sampleTodos (go "MILK") (by decide) (by decide)
      (by decide)).2
      (by decide) (by decide) (by decide) ⟨1, "axb", "pending", "t0"⟩ ⟨2, "xA.By", "done", "t1"⟩
      rfl rfl⟩

/-- C5, counterexample to the statement as written: on the search text made of the
single byte `0xff`, which is not valid UTF-8, `regexp.MustCompile` panics, so
`Search` does not return; and on the search text U+FFFD `Search` keeps an entry
whose description is the single byte `0xff`, which does not contain that text. -/
theorem Search_invalid_utf8 :
    Search asciiFold sampleTodos [Elem.invalid 255] = .error Panic.regexpCompile
    ∧ Search asciiFold { Todos := [⟨1, [Elem.invalid 255], "pending", "t0"⟩] }
          [Elem.rune (Char.ofNat 0xFFFD)]
        = .ok { Todos := [⟨1, [Elem.invalid 255], "pending", "t0"⟩] }
    ∧ ¬ containsFold asciiFold [Elem.rune (Char.ofNat 0xFFFD)] [Elem.invalid 255] :=
  ⟨rfl, rfl, by decide⟩

/-- C6, as amended: for every collection, when `RemoveFinishedTodos` returns without
error, the in-memory sequence is the original entries whose status is `pending`,
in their original order, and no entry with status `done` remains; if moreover the
texts of every pending entry are valid UTF-8, a load of the file yields that same
sequence; on a pending entry of valid texts followed by a done entry the
persisted sequence is the pending entry alone. -/
theorem RemoveFinishedTodos_persists_pending (J : Codec) (hJ : J.RoundTrip) (env : Env)
    (c c1 : Collection) (d d1 : Disk) (hlen : (c.Todos.length : Int) < 2 ^ 63)
    (h : RemoveFinishedTodos J env c d = Outcome.ret c1 d1 none) :
    c1.Todos = c.Todos.filter (fun t => decide (t.Status = go "pending"))
    ∧ (∀ t ∈ c1.Todos, t.Status ≠ "done")
    ∧ ((∀ t ∈ c.Todos, t.Status = "pending" → t.Valid = true) →
        ∀ (envR : Env) (cR : Collection), envR.openErr = none →
          RetrieveTodos J envR cR d1 = (c1, none))
    ∧ (∀ t1 t2 : Todo, c.Todos = [t1, t2] → t1.Status = "pending" → t2.Status = "done" →
        t1.Valid = true →
        ∀ (envR : Env) (cR : Collection), envR.openErr = none →
          RetrieveTodos J envR cR d1 = ({ Todos := [t1] }, none)) := by
  simp only [RemoveFinishedTodos, ListPendingTodos_eq c hlen, Outcome.ret.injEq] at h
  obtain ⟨hc1, hd1, herr⟩ := h
  have hw : WriteTodos J env c1 d = (d1, none) := by
    rw [← hc1]; exact Prod.ext hd1 herr
  obtain ⟨data, hm, hfile⟩ := WriteTodos_ok J env c1 d d1 hw
  have hT : c1.Todos = c.Todos.filter (fun t => decide (t.Status = go "pending")) := by
    rw [← hc1]
  have hload : (∀ t ∈ c.Todos, t.Status = "pending" → t.Valid = true) →
      ∀ (envR : Env) (cR : Collection), envR.openErr = none →
        RetrieveTodos J envR cR d1 = (c1, none) := by
    intro hvalid envR cR ho
    have hv : allValid c1.Todos = true := by
      simp only [allValid, List.all_eq_true]
      intro t ht
      rw [hT, List.mem_filter] at ht
      exact hvalid t ht.1 (by simpa using ht.2)
    rw [hfile, RetrieveTodos_written J hJ envR cR c1.Todos data ho hv hm]
  refine ⟨hT, ?_, hload, ?_⟩
  · intro t ht hdone
    rw [hT, List.mem_filter] at ht
    have hp : t.Status = "pending" := by simpa using ht.2
    rw [hp] at hdone
    exact absurd hdone (by decide)
  · intro t1 t2 hc hs1 hs2 hv1 envR cR ho
    have : c1 = { Todos := [t1] } := by
      cases c1
      simp only [Collection.mk.injEq]
      simp only at hT
      rw [hT, hc]
      simp [hs1, hs2]
    have hvalid : ∀ t ∈ c.Todos, t.Status = "pending" → t.Valid = true := by
      intro t ht hs
      rw [hc] at ht
      simp only [List.mem_cons, List.mem_singleton, List.mem_nil_iff, or_false] at ht
      rcases ht with rfl | rfl
      · exact hv1
      · rw [hs2] at hs
        exact absurd hs (by decide)
    rw [hload hvalid envR cR ho, this]

/-- C6, instance of the amended statement on the sample collection, whose entries are
a pending entry with id 1 and a done entry with id 2. -/
theorem RemoveFinishedTodos_persists_pending_witness :
    ({ Todos := [⟨1, "buy milk", "pending", "t0"⟩] } : Collection).Todos
        = sampleTodos.Todos.filter (fun t => decide (t.Status = go "pending"))
    ∧ (∀ t ∈ ({ Todos := [⟨1, "buy milk", "pending", "t0"⟩] } : Collection).Todos,
        t.Status ≠ "done")
    ∧ ((∀ t ∈ sampleTodos.Todos, t.Status = "pending" → t.Valid = true) →
        ∀ (envR : Env) (cR : Collection), envR.openErr = none →
          RetrieveTodos refCodec envR cR
              { file := some (String.mk (render [⟨1, "buy milk", "pending", "t0"⟩])) }
            = ({ Todos := [⟨1, "buy milk", "pending", "t0"⟩] }, none))
    ∧ (∀ t1 t2 : Todo, sampleTodos.Todos = [t1, t2] → t1.Status = "pending" →
        t2.Status = "done" → t1.Valid = true →
        ∀ (envR : Env) (cR : Collection), envR.openErr = none →
          RetrieveTodos refCodec envR cR
              { file := some (String.mk (render [⟨1, "buy milk", "pending", "t0"⟩])) }
            = ({ Todos := [t1] }, none)) :=
  RemoveFinishedTodos_persists_pending refCodec refCodec_roundTrip envOk sampleTodos
    { Todos := [⟨1, "buy milk", "pending", "t0"⟩] } diskInit
    { file := some (String.mk (render [⟨1, "buy milk", "pending", "t0"⟩])) }
    (by decide) rfl

/-- C6, counterexample to the statement as written: the only entry is pending and its
description is the single byte `0xff`; `RemoveFinishedTodos` returns without
error and keeps the entry, the load of the file returns without error, and the
description read back is U+FFFD, so the persisted sequence differs from the
in-memory one. -/
theorem RemoveFinishedTodos_persists_replacement_rune :
    ∃ c1 d1 c2,
      RemoveFinishedTodos refCodec envOk
          { Todos := [⟨1, [Elem.invalid 255], "pending", "t0"⟩] } diskInit
        = Outcome.ret c1 d1 none
      ∧ RetrieveTodos refCodec envOk { Todos := [] } d1 = (c2, none)
      ∧ c1.Todos.map Todo.Desc = [[Elem.invalid 255]]
      ∧ c2.Todos.map Todo.Desc = [[Elem.rune (Char.ofNat 0xFFFD)]]
      ∧ c2 ≠ c1 :=
  ⟨_, _, _, rfl, rfl, rfl, rfl, by decide⟩

/-- C7, as amended: for every collection state reached from a loaded collection by a
sequence of `CreateTodo`, `Toggle`, `Modify` and `DeleteTodo` calls whose texts
(description and status of a created todo, new description) are valid UTF-8, a
`WriteTodos` that returns no error followed by a `RetrieveTodos` that returns no
error yields the in-memory state at save time: same length, same order, same id,
description, status and modified of every entry. -/
theorem save_load_after_ops (envL : Env)
    (c0 cL : Collection) (dL : Disk) (hload : RetrieveTodos refCodec envL c0 dL = (cL, none))
    (ops : List Op) (hops : ∀ op ∈ ops, op.textValid = true)
    (c : Collection) (d : Disk) (hrun : runOps refCodec ops (cL, dL) = some (c, d))
    (envW envR : Env) (cR c2 : Collection) (d1 : Disk)
    (hw : WriteTodos refCodec envW c d = (d1, none))
    (hr : RetrieveTodos refCodec envR cR d1 = (c2, none)) :
    c2 = c ∧ c2.Todos.length = c.Todos.length ∧
      ∀ i : Nat, (c2.Todos[i]?).map (fun t : Todo => (t.Id, t.Desc, t.Status, t.Modified))
        = (c.Todos[i]?).map (fun t : Todo => (t.Id, t.Desc, t.Status, t.Modified)) := by
  obtain ⟨data, _, hdec⟩ := RetrieveTodos_ok refCodec envL c0 cL dL hload
  have hL : allValid cL.Todos = true := parse_valid _ _ (refCodec_decode _ _ _ hdec)
  have hc : allValid c.Todos = true :=
    runOps_valid refCodec ops (cL, dL) (c, d) hops hL hrun
  have h2 := refCodec_write_then_retrieve envW envR c cR c2 d d1 hw hr
  rw [map_sanitize_of_allValid _ hc] at h2
  have h : c2 = c := by
    cases c; cases c2
    simp only [Collection.mk.injEq]
    exact h2
  subst h
  exact ⟨rfl, rfl, fun _ => rfl⟩

/-- C7, instance of the amended statement: the empty array is loaded, an entry is
created, toggled, modified, a second entry is created and the first position is
deleted; the state is saved and loaded back. -/
theorem save_load_after_ops_witness :
    (({ Todos := [⟨2, "call Bob", "pending", envOk.now⟩] } : Collection)
        = { Todos := [⟨2, "call Bob", "pending", envOk.now⟩] })
    ∧ ({ Todos := [⟨2, "call Bob", "pending", envOk.now⟩] } : Collection).Todos.length
        = ({ Todos := [⟨2, "call Bob", "pending", envOk.now⟩] } : Collection).Todos.length
    ∧ ∀ i : Nat, (({ Todos := [⟨2, "call Bob", "pending", envOk.now⟩] } : Collection).Todos[i]?).map
          (fun t : Todo => (t.Id, t.Desc, t.Status, t.Modified))
        = (({ Todos := [⟨2, "call Bob", "pending", envOk.now⟩] } : Collection).Todos[i]?).map
          (fun t : Todo => (t.Id, t.Desc, t.Status, t.Modified)) :=
  save_load_after_ops envOk { Todos := [] } { Todos := [] } diskInit
    rfl
    [Op.create envOk ⟨0, "buy milk", "pending", ""⟩, Op.toggle envOk 1,
      Op.modify envOk 1 (go "buy oat milk"), Op.create envOk ⟨0, "call Bob", "pending", ""⟩,
      Op.delete envOk 1]
    (by decide)
    { Todos := [⟨2, "call Bob", "pending", envOk.now⟩] }
    { file := some (String.mk (render [⟨2, "call Bob", "pending", envOk.now⟩])) }
    rfl envOk envOk { Todos := [] } { Todos := [⟨2, "call Bob", "pending", envOk.now⟩] }
    { file := some (String.mk (render [⟨2, "call Bob", "pending", envOk.now⟩])) }
    rfl
    rfl

/-- C7, counterexample to the statement as written: the empty array is loaded, an
entry is created and `Modify` gives it the description made of the single byte
`0xff`; the save and the load both return no error, and the description read
back is U+FFFD, so the loaded collection differs from the one that was saved. -/
theorem save_load_changes_invalid_utf8 :
    ∃ cL c d d1 c2,
      RetrieveTodos refCodec envOk { Todos := [] } diskInit = (cL, none)
      ∧ runOps refCodec [Op.create envOk ⟨0, "buy milk", "pending", ""⟩,
          Op.modify envOk 1 [Elem.invalid 255]] (cL, diskInit) = some (c, d)
      ∧ WriteTodos refCodec envOk c d = (d1, none)
      ∧ RetrieveTodos refCodec envOk { Todos := [] } d1 = (c2, none)
      ∧ c.Todos.map Todo.Desc = [[Elem.invalid 255]]
      ∧ c2.Todos.map Todo.Desc = [[Elem.rune (Char.ofNat 0xFFFD)]]
      ∧ c2 ≠ c :=
  ⟨_, _, _, _, _, rfl, rfl, rfl, rfl, rfl, rfl, by decide⟩

/-- C8: for every collection and id, `Find(id)` returns the not-found error if and only
if no entry has that id; otherwise it returns, with no error, the entry at the
greatest position whose id equals the id; and it leaves the collection as it was. -/
theorem Find_last_match (c : Collection) (id : Int) :
    ((Find c id).2.2 = some (Err.new (notFoundMsg id)) ↔ ∀ t ∈ c.Todos, t.Id ≠ id)
    ∧ ((∃ t ∈ c.Todos, t.Id = id) →
        ∃ p t, Find c id = (c, some p, none) ∧ c.Todos[p]? = some t ∧ t.Id = id ∧
          ∀ q u, p < q → c.Todos[q]? = some u → u.Id ≠ id)
    ∧ (Find c id).1 = c := by
  refine ⟨⟨?_, ?_⟩, Find_present c id, ?_⟩
  · intro herr t ht htid
    obtain ⟨p, u, hf, _⟩ := Find_present c id ⟨t, ht, htid⟩
    rw [hf] at herr
    simp at herr
  · intro h
    rw [Find_absent c id h]
  · by_cases h : ∃ t ∈ c.Todos, t.Id = id
    · obtain ⟨p, u, hf, _⟩ := Find_present c id h
      rw [hf]
    · rw [Find_absent c id (by simpa using h)]

/-- C8, instance on a collection that carries the id 1 at positions 0 and 2 and does
not carry the id 7. -/
theorem Find_last_match_witness :
    (Find dupTodos 7).2.2 = some (Err.new (notFoundMsg 7))
    ∧ ∃ p t, Find dupTodos 1 = (dupTodos, some p, none) ∧ dupTodos.Todos[p]? = some t ∧
        t.Id = 1 ∧ ∀ q u, p < q → dupTodos.Todos[q]? = some u → u.Id ≠ 1 :=
  ⟨(Find_last_match dupTodos 7).1.mpr (by decide),
    (Find_last_match dupTodos 1).2.1 ⟨⟨1, "buy milk", "pending", "t0"⟩, by decide, rfl⟩⟩

/-- C9: for every collection (of a length an `int` can hold), the backward scan of
`ListPendingTodos`, respectively `ListDoneTodos`, runs to its end without an index
or slice bound failure and leaves the order-preserving filter of the original
sequence by the status `pending`, respectively `done`. -/
theorem ListTodos_filter (c : Collection) (hlen : (c.Todos.length : Int) < 2 ^ 63) :
    ListPendingTodos c
        = .ok { Todos := c.Todos.filter (fun t => decide (t.Status = "pending")) }
    ∧ ListDoneTodos c
        = .ok { Todos := c.Todos.filter (fun t => decide (t.Status = "done")) } :=
  ⟨ListPendingTodos_eq c hlen, ListDoneTodos_eq c hlen⟩

/-- C9, instance on the sample collection. -/
theorem ListTodos_filter_witness :
    ListPendingTodos sampleTodos
        = .ok { Todos := (sampleTodos.Todos.filter (fun t => decide (t.Status = "pending"))) }
    ∧ ListDoneTodos sampleTodos
        = .ok { Todos := (sampleTodos.Todos.filter (fun t => decide (t.Status = "done"))) } :=
  ListTodos_filter sampleTodos (by decide)

/-- C10: for every collection of length n and every id from 1 up: if id is at most n,
`DeleteTodo(id)` returns with the entry at position id-1 removed, whatever its id
field, and the other n-1 entries unchanged in their order; if id is above n,
`DeleteTodo(id)` panics with a slice bound failure, the file untouched. -/
theorem DeleteTodo_by_position (J : Codec) (env : Env) (c : Collection) (d : Disk) (id : Int)
    (hlen : (c.Todos.length : Int) < 2 ^ 63) (h1 : 1 ≤ id) (h64 : id < 2 ^ 63) :
    (id ≤ c.Todos.length →
      ∃ d1 err, DeleteTodo J env c d id
          = Outcome.ret { Todos := c.Todos.take (id.toNat - 1) ++ c.Todos.drop id.toNat } d1 err
        ∧ c.Todos.take (id.toNat - 1) ++ c.Todos.drop id.toNat
            = c.Todos.eraseIdx (id.toNat - 1)
        ∧ (c.Todos.eraseIdx (id.toNat - 1)).length = c.Todos.length - 1)
    ∧ ((c.Todos.length : Int) < id →
      DeleteTodo J env c d id = Outcome.panic Panic.sliceBounds d) := by
  have hw1 : wrap64 id = id := wrap64_of_isInt64 (by unfold isInt64; omega)
  have hw2 : wrap64 (id - 1) = id - 1 := wrap64_of_isInt64 (by unfold isInt64; omega)
  have hidx : ¬ (id - 1 < 0) := by omega
  constructor
  · intro hle
    have hrm := RemoveAtIndex_inRange c (id - 1) (by omega) (by omega) hlen
    have e1 : (id - 1).toNat = id.toNat - 1 := by omega
    have e2 : id.toNat - 1 + 1 = id.toNat := by omega
    rw [e1, e2] at hrm
    let c1 : Collection := { Todos := c.Todos.take (id.toNat - 1) ++ c.Todos.drop id.toNat }
    refine ⟨(WriteTodos J env c1 d).1, (WriteTodos J env c1 d).2, ?_, ?_, ?_⟩
    · simp only [DeleteTodo, hw1, hw2, hidx, if_false, hrm, c1]
    · rw [List.eraseIdx_eq_take_drop_succ, e2]
    · rw [List.length_eraseIdx]
      have : id.toNat - 1 < c.Todos.length := by omega
      simp [this]
  · intro hgt
    have hrm := RemoveAtIndex_outOfRange c (id - 1) (by unfold isInt64; omega) (by omega)
    simp only [DeleteTodo, hw1, hw2, hidx, if_false, hrm]

/-- C10, instance: deleting with id 1 on the sample collection, and with id 3, one
above its length. -/
theorem DeleteTodo_by_position_witness :
    (((1 : Int) ≤ sampleTodos.Todos.length →
      ∃ d1 err, DeleteTodo refCodec envOk sampleTodos diskInit 1
          = Outcome.ret { Todos := sampleTodos.Todos.take ((1 : Int).toNat - 1) ++
              sampleTodos.Todos.drop (1 : Int).toNat } d1 err
        ∧ sampleTodos.Todos.take ((1 : Int).toNat - 1) ++ sampleTodos.Todos.drop (1 : Int).toNat
            = sampleTodos.Todos.eraseIdx ((1 : Int).toNat - 1)
        ∧ (sampleTodos.Todos.eraseIdx ((1 : Int).toNat - 1)).length
            = sampleTodos.Todos.length - 1)
    ∧ ((sampleTodos.Todos.length : Int) < 1 →
      DeleteTodo refCodec envOk sampleTodos diskInit 1 = Outcome.panic Panic.sliceBounds diskInit))
    ∧ DeleteTodo refCodec envOk sampleTodos diskInit 3
        = Outcome.panic Panic.sliceBounds diskInit :=
  ⟨DeleteTodo_by_position refCodec envOk sampleTodos diskInit 1 (by decide) (by decide)
      (by decide),
    (DeleteTodo_by_position refCodec envOk sampleTodos diskInit 3 (by decide) (by decide)
      (by decide)).2 (by decide)⟩

/-- C11: for every collection of length n (a length an `int` can hold), `Reorder`
returns with the same length and order, the entry at position i carrying the id
i+1 and its description, status and modified unchanged; the ids are 1, ..., n by
position, and `Reorder` applied again leaves the sequence as it is. -/
theorem Reorder_ids_by_position (J : Codec) (env : Env) (c : Collection) (d : Disk)
    (hlen : (c.Todos.length : Int) < 2 ^ 63) :
    ∃ c1 d1 err, Reorder J env c d = Outcome.ret c1 d1 err ∧
      c1.Todos.length = c.Todos.length ∧
      (∀ (i : Nat) (t : Todo), c.Todos[i]? = some t →
        c1.Todos[i]? = some { t with Id := (i : Int) + 1 }) ∧
      ids c1 = (List.range' 1 c.Todos.length).map (fun k : Nat => (k : Int)) ∧
      ∀ (J2 : Codec) (env2 : Env) (d2 : Disk),
        ∃ d3 err2, Reorder J2 env2 c1 d2 = Outcome.ret c1 d3 err2 := by
  have hb : ((0 + c.Todos.length : Nat) : Int) < 2 ^ 63 := by simpa using hlen
  let c1 : Collection := { Todos := reorderLoop c.Todos 0 }
  refine ⟨c1, (WriteTodos J env c1 d).1, (WriteTodos J env c1 d).2, rfl,
    reorderLoop_length c.Todos 0, ?_, ?_, ?_⟩
  · intro i t ht
    show (reorderLoop c.Todos 0)[i]? = _
    rw [reorderLoop_getElem? c.Todos 0 i hb, ht]
    simp
  · show (reorderLoop c.Todos 0).map Todo.Id = _
    rw [reorderLoop_ids c.Todos 0 hb]
  · intro J2 env2 d2
    refine ⟨(WriteTodos J2 env2 c1 d2).1, (WriteTodos J2 env2 c1 d2).2, ?_⟩
    simp only [Reorder, c1, reorderLoop_idem]

/-- C11, instance on a collection whose ids are 1, 2, 1. -/
theorem Reorder_ids_by_position_witness :
    ∃ c1 d1 err, Reorder refCodec envOk dupTodos diskInit = Outcome.ret c1 d1 err ∧
      c1.Todos.length = dupTodos.Todos.length ∧
      (∀ (i : Nat) (t : Todo), dupTodos.Todos[i]? = some t →
        c1.Todos[i]? = some { t with Id := (i : Int) + 1 }) ∧
      ids c1 = (List.range' 1 dupTodos.Todos.length).map (fun k : Nat => (k : Int)) ∧
      ∀ (J2 : Codec) (env2 : Env) (d2 : Disk),
        ∃ d3 err2, Reorder J2 env2 c1 d2 = Outcome.ret c1 d3 err2 :=
  Reorder_ids_by_position refCodec envOk dupTodos diskInit (by decide)

/-- C12: for every collection with pairwise distinct ids and two different ids idA and
idB carried at positions pA and pB, `Swap(idA, idB)` returns; the entry that was at
pA is then at pB with id idB, the entry that was at pB is at pA with id idA, every
other entry is unchanged at its position, and the ids by position are unchanged. -/
theorem Swap_exchanges_entries (J : Codec) (env : Env) (c : Collection) (d : Disk)
    (idA idB : Int) (pA pB : Nat) (a b : Todo) (hnd : (ids c).Nodup) (hAB : idA ≠ idB)
    (hA : c.Todos[pA]? = some a) (haid : a.Id = idA)
    (hB : c.Todos[pB]? = some b) (hbid : b.Id = idB) :
    ∃ c1 d1 err, Swap J env c d idA idB = Outcome.ret c1 d1 err ∧
      c1.Todos.length = c.Todos.length ∧
      c1.Todos[pB]? = some { a with Id := idB } ∧
      c1.Todos[pA]? = some { b with Id := idA } ∧
      (∀ q, q ≠ pA → q ≠ pB → c1.Todos[q]? = c.Todos[q]?) ∧
      ids c1 = ids c := by
  have hposA := swap_posA_present idA idB c.Todos hnd pA a hA haid
  have hposB := swap_posB_present idA idB c.Todos hnd pB b hB hbid hAB
  have hpp : pA ≠ pB := by
    intro h
    rw [h, hB] at hA
    have : b = a := Option.some.inj hA
    exact hAB (haid.symm.trans ((congrArg Todo.Id this).symm.trans hbid))
  obtain ⟨c1, d1, err, hs, hlen, hq⟩ := Swap_nonempty J env c d idA idB
    (ne_nil_of_getElem? _ pA a hA)
  rw [hposA, hposB] at hq
  have ra : relabel idA idB a = { a with Id := idB } := by
    simp [relabel, swapId, haid]
  have rb : relabel idA idB b = { b with Id := idA } := by
    simp [relabel, swapId, hbid, Ne.symm hAB]
  have hother : ∀ q, q ≠ pA → q ≠ pB → c1.Todos[q]? = c.Todos[q]? := by
    intro q h1 h2
    rw [hq q, if_neg h2, if_neg h1]
    cases hcq : c.Todos[q]? with
    | none => rfl
    | some u =>
      have huA : u.Id ≠ idA := fun h =>
        h1 (nodup_pos_unique c.Todos hnd q pA u a hcq hA (h.trans haid.symm))
      have huB : u.Id ≠ idB := fun h =>
        h2 (nodup_pos_unique c.Todos hnd q pB u b hcq hB (h.trans hbid.symm))
      simp [relabel_of_ne idA idB u huA huB]
  have h1 : c1.Todos[pB]? = some { a with Id := idB } := by
    rw [hq pB, if_pos rfl, hA, Option.map_some', ra]
  have h2 : c1.Todos[pA]? = some { b with Id := idA } := by
    rw [hq pA, if_neg hpp, if_pos rfl, hB, Option.map_some', rb]
  refine ⟨c1, d1, err, hs, hlen, h1, h2, hother, ?_⟩
  apply List.ext_getElem?
  intro q
  simp only [ids, List.getElem?_map]
  by_cases e1 : q = pA
  · subst e1; rw [h2, hA]; simp [haid]
  · by_cases e2 : q = pB
    · subst e2; rw [h1, hB]; simp [hbid]
    · rw [hother q e1 e2]

/-- C12, instance: the ids 1 and 2 of the sample collection. -/
theorem Swap_exchanges_entries_witness :
    ∃ c1 d1 err, Swap refCodec envOk sampleTodos diskInit 1 2 = Outcome.ret c1 d1 err ∧
      c1.Todos.length = sampleTodos.Todos.length ∧
      c1.Todos[1]? = some { (⟨1, "buy milk", "pending", "t0"⟩ : Todo) with Id := 2 } ∧
      c1.Todos[0]? = some { (⟨2, "call Bob", "done", "t1"⟩ : Todo) with Id := 1 } ∧
      (∀ q, q ≠ 0 → q ≠ 1 → c1.Todos[q]? = sampleTodos.Todos[q]?) ∧
      ids c1 = ids sampleTodos :=
  Swap_exchanges_entries refCodec envOk sampleTodos diskInit 1 2 0 1
    ⟨1, "buy milk", "pending", "t0"⟩ ⟨2, "call Bob", "done", "t1"⟩
    (by decide) (by decide) rfl rfl rfl rfl

/-- C13: for every collection and every id that no entry carries, `Toggle(id)` and
`Modify(id, desc)` each return the not-found error with a nil todo, and leave the
collection and the file as they were. -/
theorem Toggle_Modify_not_found (J : Codec) (env : Env) (c : Collection) (d : Disk) (id : Int)
    (desc : GoString) (habs : ∀ t ∈ c.Todos, t.Id ≠ id) :
    Toggle J env c d id = Outcome.ret c d (none, some (Err.new (notFoundMsg id)))
    ∧ Modify J env c d id desc = Outcome.ret c d (none, some (Err.new (notFoundMsg id))) := by
  constructor
  · simp only [Toggle, Find_absent c id habs]
  · simp only [Modify, Find_absent c id habs]

/-- C13, instance: the id 7 on the sample collection. -/
theorem Toggle_Modify_not_found_witness :
    Toggle refCodec envOk sampleTodos diskInit 7
        = Outcome.ret sampleTodos diskInit (none, some (Err.new (notFoundMsg 7)))
    ∧ Modify refCodec envOk sampleTodos diskInit 7 "call Alice"
        = Outcome.ret sampleTodos diskInit (none, some (Err.new (notFoundMsg 7))) :=
  Toggle_Modify_not_found refCodec envOk sampleTodos diskInit 7 "call Alice" (by decide)

/-- C14: for every collection, every id that `Find` resolves and every text, after a
`Modify(id, desc)` that returns no error the entry `Find(id)` returned has the
description desc and its id and status unchanged, every other entry is unchanged,
the length and the order are unchanged, and `Find(id)` still returns that entry. -/
theorem Modify_sets_description (J : Codec) (env : Env) (c c1 : Collection) (d d1 : Disk)
    (id : Int) (desc : GoString) (r : Option Nat)
    (h : Modify J env c d id desc = Outcome.ret c1 d1 (r, none)) :
    ∃ p t, Find c id = (c, some p, none) ∧ r = some p ∧ c.Todos[p]? = some t ∧
      c1.Todos[p]? = some { t with Desc := desc, Modified := env.now } ∧
      (∀ q, q ≠ p → c1.Todos[q]? = c.Todos[q]?) ∧
      c1.Todos.length = c.Todos.length ∧
      (Find c1 id).2 = (some p, none) := by
  obtain ⟨p, t, hf, ht, _, hr, hc1⟩ := Modify_ok J env c c1 d d1 id desc r h
  have hplt : p < c.Todos.length := (List.getElem?_eq_some_iff.mp ht).1
  have hfs := Find_set c id p { t with Desc := desc, Modified := env.now } ⟨t, ht, rfl⟩
  have hc1eq : c1 = { Todos := c.Todos.set p { t with Desc := desc, Modified := env.now } } := by
    cases c1; simp only [Collection.mk.injEq]; exact hc1
  refine ⟨p, t, hf, hr, ht, ?_, ?_, ?_, ?_⟩
  · rw [hc1, List.getElem?_set_self hplt]
  · intro q hq
    rw [hc1, List.getElem?_set_ne (Ne.symm hq)]
  · rw [hc1, List.length_set]
  · rw [hc1eq, hfs, hf]

/-- C14, instance: the description of entry 2 of the sample collection is rewritten. -/
theorem Modify_sets_description_witness :
    ∃ p t, Find sampleTodos 2 = (sampleTodos, some p, none) ∧ some 1 = some p ∧
      sampleTodos.Todos[p]? = some t ∧
      (sampleTodos.Todos.set 1 ⟨2, "call Alice", "done", envOk.now⟩)[p]?
        = some { t with Desc := "call Alice", Modified := envOk.now } ∧
      (∀ q, q ≠ p →
        (sampleTodos.Todos.set 1 ⟨2, "call Alice", "done", envOk.now⟩)[q]?
          = sampleTodos.Todos[q]?) ∧
      (sampleTodos.Todos.set 1 ⟨2, "call Alice", "done", envOk.now⟩).length
        = sampleTodos.Todos.length ∧
      (Find { Todos := sampleTodos.Todos.set 1 ⟨2, "call Alice", "done", envOk.now⟩ } 2).2
        = (some p, none) :=
  Modify_sets_description refCodec envOk sampleTodos
    { Todos := sampleTodos.Todos.set 1 ⟨2, "call Alice", "done", envOk.now⟩ } diskInit
    { file := some (String.mk (render
        (sampleTodos.Todos.set 1 ⟨2, "call Alice", "done", envOk.now⟩))) }
    2 "call Alice" (some 1) rfl

/-- C15, as amended: for every collection whose ids are all below the greatest `int64`
and every new todo, `CreateTodo` returns id = g + 1, where g is the greatest of 0
and the existing ids: g is at least 0 and at least every existing id, and g is 0 or
an existing id.  So the id is (maximum existing id) + 1 as soon as some existing id
is not negative, and 1 on the empty collection.  The resulting sequence is the old
one followed by the new todo with the returned id; on the empty collection a todo
described `buy milk` becomes the only entry, with id 1. -/
theorem CreateTodo_id_after_greatest (J : Codec) (env : Env) (c : Collection) (d : Disk)
    (newTodo : Todo) (hroom : ∀ t ∈ c.Todos, t.Id < 2 ^ 63 - 1) :
    ∃ d1 id err,
      CreateTodo J env c d newTodo
        = Outcome.ret { Todos := c.Todos ++ [{ newTodo with Id := id, Modified := env.now }] }
            d1 (id, err)
      ∧ 0 ≤ id - 1 ∧ (∀ t ∈ c.Todos, t.Id ≤ id - 1)
      ∧ (id - 1 = 0 ∨ ∃ t ∈ c.Todos, t.Id = id - 1)
      ∧ ((∃ t ∈ c.Todos, 0 ≤ t.Id) →
          ∃ t ∈ c.Todos, id = t.Id + 1 ∧ ∀ u ∈ c.Todos, u.Id ≤ t.Id)
      ∧ (c.Todos = [] → id = 1)
      ∧ (c.Todos = [] → newTodo.Desc = "buy milk" →
          c.Todos ++ [{ newTodo with Id := id, Modified := env.now }]
            = [{ newTodo with Id := 1, Desc := "buy milk", Modified := env.now }]) := by
  have hge := highestIdLoop_ge c.Todos 0
  have hlt := highestIdLoop_lt c.Todos 0 (2 ^ 63 - 1) (by norm_num) hroom
  have hle := highestIdLoop_mem_le c.Todos 0
  have hat := highestIdLoop_attained c.Todos 0
  have hw : wrap64 (highestIdLoop c.Todos 0 + 1) = highestIdLoop c.Todos 0 + 1 :=
    wrap64_of_isInt64 (by unfold isInt64; omega)
  let c1 : Collection :=
    { Todos := c.Todos ++ [{ newTodo with Id := highestIdLoop c.Todos 0 + 1, Modified := env.now }] }
  have hempty : c.Todos = [] → highestIdLoop c.Todos 0 + 1 = 1 := by
    intro h; simp [h, highestIdLoop]
  refine ⟨(WriteTodos J env c1 d).1, highestIdLoop c.Todos 0 + 1, (WriteTodos J env c1 d).2,
    ?_, by omega, ?_, ?_, ?_, hempty, ?_⟩
  · simp only [CreateTodo, hw, c1]
  · intro t ht
    have := hle t ht
    omega
  · rcases hat with h0 | ⟨t, ht, hid⟩
    · left; omega
    · right; exact ⟨t, ht, by omega⟩
  · rintro ⟨u, hu, hu0⟩
    rcases hat with h0 | ⟨t, ht, hid⟩
    · have hu1 := hle u hu
      refine ⟨u, hu, by omega, ?_⟩
      intro v hv
      have := hle v hv
      omega
    · refine ⟨t, ht, by omega, ?_⟩
      intro v hv
      have := hle v hv
      omega
  · intro h hdesc
    rw [hempty h, h, ← hdesc]
    rfl

/-- C15, instance of the amended statement on the sample collection. -/
theorem CreateTodo_id_after_greatest_witness :
    ∃ d1 id err,
      CreateTodo refCodec envOk sampleTodos diskInit ⟨0, "buy milk", "pending", ""⟩
        = Outcome.ret
            { Todos := sampleTodos.Todos ++
                [{ (⟨0, "buy milk", "pending", ""⟩ : Todo) with Id := id, Modified := envOk.now }] }
            d1 (id, err)
      ∧ 0 ≤ id - 1 ∧ (∀ t ∈ sampleTodos.Todos, t.Id ≤ id - 1)
      ∧ (id - 1 = 0 ∨ ∃ t ∈ sampleTodos.Todos, t.Id = id - 1)
      ∧ ((∃ t ∈ sampleTodos.Todos, 0 ≤ t.Id) →
          ∃ t ∈ sampleTodos.Todos, id = t.Id + 1 ∧ ∀ u ∈ sampleTodos.Todos, u.Id ≤ t.Id)
      ∧ (sampleTodos.Todos = [] → id = 1)
      ∧ (sampleTodos.Todos = [] → (⟨0, "buy milk", "pending", ""⟩ : Todo).Desc = "buy milk" →
          sampleTodos.Todos ++
              [{ (⟨0, "buy milk", "pending", ""⟩ : Todo) with Id := id, Modified := envOk.now }]
            = [{ (⟨0, "buy milk", "pending", ""⟩ : Todo) with
                Id := 1, Desc := "buy milk", Modified := envOk.now }]) :=
  CreateTodo_id_after_greatest refCodec envOk sampleTodos diskInit
    ⟨0, "buy milk", "pending", ""⟩ (by decide)

/-- C15, counterexample to the statement as written: the only existing id is -5, so
the maximum existing id plus one is -4, and `CreateTodo` returns 1. -/
theorem CreateTodo_id_ignores_negative_ids :
    (∀ t ∈ negativeTodos.Todos, t.Id ≤ -5) ∧ (∃ t ∈ negativeTodos.Todos, t.Id = -5) ∧
    ∃ c1 d1 id err,
      CreateTodo refCodec envOk negativeTodos diskInit ⟨0, "call Bob", "pending", ""⟩
        = Outcome.ret c1 d1 (id, err) ∧ id = 1 ∧ id ≠ -5 + 1 :=
  ⟨by decide, by decide, _, _, _, _, rfl, rfl, by decide⟩

/-- C16, as amended: if the ids of a collection are pairwise distinct, they are still
pairwise distinct after any one of `CreateTodo` (provided every existing id is
below the greatest `int64`), `Toggle`, `Modify`, `ListPendingTodos`,
`ListDoneTodos`, `Search`, `RemoveFinishedTodos`, `DeleteTodo`, `Reorder` and
`Swap`, for any arguments, whenever the operation returns; and after `Reorder`
the ids are pairwise distinct whatever they were before. -/
theorem ids_stay_distinct (J : Codec) (env : Env) (fold : Char → Char) (c : Collection)
    (d : Disk) (hlen : (c.Todos.length : Int) < 2 ^ 63) :
    ((ids c).Nodup →
      (∀ newTodo c1 d1 v, (∀ t ∈ c.Todos, t.Id < 2 ^ 63 - 1) →
        CreateTodo J env c d newTodo = Outcome.ret c1 d1 v → (ids c1).Nodup)
      ∧ (∀ id c1 d1 v, Toggle J env c d id = Outcome.ret c1 d1 v → (ids c1).Nodup)
      ∧ (∀ id desc c1 d1 v, Modify J env c d id desc = Outcome.ret c1 d1 v → (ids c1).Nodup)
      ∧ (∀ c1, ListPendingTodos c = .ok c1 → (ids c1).Nodup)
      ∧ (∀ c1, ListDoneTodos c = .ok c1 → (ids c1).Nodup)
      ∧ (∀ text c1, Search fold c text = .ok c1 → (ids c1).Nodup)
      ∧ (∀ c1 d1 v, RemoveFinishedTodos J env c d = Outcome.ret c1 d1 v → (ids c1).Nodup)
      ∧ (∀ id c1 d1 v, DeleteTodo J env c d id = Outcome.ret c1 d1 v → (ids c1).Nodup)
      ∧ (∀ c1 d1 v, Reorder J env c d = Outcome.ret c1 d1 v → (ids c1).Nodup)
      ∧ (∀ idA idB c1 d1 v, Swap J env c d idA idB = Outcome.ret c1 d1 v → (ids c1).Nodup))
    ∧ (∀ c1 d1 v, Reorder J env c d = Outcome.ret c1 d1 v → (ids c1).Nodup) := by
  have hreorder : ∀ c1 d1 v, Reorder J env c d = Outcome.ret c1 d1 v → (ids c1).Nodup := by
    intro c1 d1 v h
    simp only [Reorder, Outcome.ret.injEq] at h
    rw [← h.1]
    show ((reorderLoop c.Todos 0).map Todo.Id).Nodup
    rw [reorderLoop_ids c.Todos 0 (by simpa using hlen)]
    exact nodup_range_cast _ _
  have hfilter : ∀ (keep : Todo → Bool) (c1 : Collection),
      c1.Todos = c.Todos.filter keep → (ids c).Nodup → (ids c1).Nodup := by
    intro keep c1 h hnd
    exact nodup_ids_sublist c.Todos c1.Todos (by rw [h]; exact List.filter_sublist _) hnd
  refine ⟨fun hnd => ⟨?_, ?_, ?_, ?_, ?_, ?_, ?_, ?_, hreorder, ?_⟩, hreorder⟩
  · intro newTodo c1 d1 v hroom h
    have hlt := highestIdLoop_lt c.Todos 0 (2 ^ 63 - 1) (by norm_num) hroom
    have hge := highestIdLoop_ge c.Todos 0
    have hw : wrap64 (highestIdLoop c.Todos 0 + 1) = highestIdLoop c.Todos 0 + 1 :=
      wrap64_of_isInt64 (by unfold isInt64; omega)
    simp only [CreateTodo, hw, Outcome.ret.injEq] at h
    rw [← h.1]
    simp only [ids, List.map_append, List.map_cons, List.map_nil]
    rw [List.nodup_append]
    refine ⟨hnd, List.nodup_singleton _, ?_⟩
    intro x hx hx1
    simp only [List.mem_singleton] at hx1
    obtain ⟨t, ht, rfl⟩ := List.mem_map.mp hx
    have := highestIdLoop_mem_le c.Todos 0 t ht
    omega
  · intro id c1 d1 v h
    rcases Toggle_ret J env c c1 d d1 id v h with rfl | ⟨p, t, ht, hc1⟩
    · exact hnd
    · have : ids c1 = ids c := by
        simp only [ids, hc1]
        exact ids_set c.Todos p t (toggled env.now t) ht (by simp only [toggled]; split <;> rfl)
      rw [this]; exact hnd
  · intro id desc c1 d1 v h
    rcases Modify_ret J env c c1 d d1 id desc v h with rfl | ⟨p, t, ht, hc1⟩
    · exact hnd
    · have : ids c1 = ids c := by
        simp only [ids, hc1]
        exact ids_set c.Todos p t _ ht rfl
      rw [this]; exact hnd
  · intro c1 h
    rw [ListPendingTodos_eq c hlen] at h
    simp only [Except.ok.injEq] at h
    exact hfilter _ c1 (by rw [← h]) hnd
  · intro c1 h
    rw [ListDoneTodos_eq c hlen] at h
    simp only [Except.ok.injEq] at h
    exact hfilter _ c1 (by rw [← h]) hnd
  · intro text c1 h
    obtain ⟨keep, hkeep⟩ := Search_filter fold c c1 text hlen h
    exact hfilter keep c1 hkeep hnd
  · intro c1 d1 v h
    simp only [RemoveFinishedTodos, ListPendingTodos_eq c hlen, Outcome.ret.injEq] at h
    exact hfilter _ c1 (by rw [← h.1]) hnd
  · intro id c1 d1 v h
    unfold DeleteTodo at h
    simp only at h
    split at h
    · simp only [Outcome.ret.injEq] at h
      rw [← h.1]; exact hnd
    · split at h
      · simp at h
      · rename_i c2 hrm
        simp only [Outcome.ret.injEq] at h
        rw [← h.1]
        exact nodup_ids_sublist c.Todos c2.Todos
          (RemoveAtIndex_sublist c c2 _ (wrap64_isInt64 _) hrm) hnd
  · intro idA idB c1 d1 v h
    exact Swap_nodup J env c c1 d d1 idA idB v hnd h

/-- C16, instance: the ids of the sample collection after a `Swap` with one id
missing, and the ids of a collection with a duplicated id after `Reorder`. -/
theorem ids_stay_distinct_witness :
    (ids { Todos := [⟨9, "call Bob", "done", "t1"⟩, ⟨1, "buy milk", "pending", "t0"⟩] }).Nodup
    ∧ (ids { Todos := reorderLoop dupTodos.Todos 0 }).Nodup :=
  ⟨((ids_stay_distinct refCodec envOk asciiFold sampleTodos diskInit (by decide)).1
      (by decide)).2.2.2.2.2.2.2.2.2 2 9 _ _ _ rfl,
    (ids_stay_distinct refCodec envOk asciiFold dupTodos diskInit (by decide)).2 _ _ _ rfl⟩

/-- C16, counterexample to the statement as written: the two ids of the collection are
distinct, `CreateTodo` returns, and the id it assigns is one of them. -/
theorem CreateTodo_repeats_id_at_max :
    (ids endsTodos).Nodup ∧
    ∃ c1 d1 v,
      CreateTodo refCodec envOk endsTodos diskInit ⟨0, "call Bob", "pending", ""⟩
        = Outcome.ret c1 d1 v ∧ ¬ (ids c1).Nodup :=
  ⟨by decide, _, _, _, rfl, by decide⟩

/-- C17: with the files as explicit state and `os.Stat` reporting them as they are: if
there is no file at the path, or the file there has zero length, and create and
write succeed, `CreateStoreFileIfNeeded(path)` returns no error and leaves at the
path a file whose content is the two characters `[]`, the other files untouched;
if the file exists and is not empty, it returns the `StoreAlreadyExist` error and
leaves the files as they were. -/
theorem CreateStoreFileIfNeeded_init (env : StoreEnv) (fs : FileSys) (path : String)
    (hstat : env.statErr = none) :
    ((fs.file path = none ∨ fs.file path = some "") →
        env.createErr = none → env.writeErr = none →
        ∃ fs1, CreateStoreFileIfNeeded env fs path = StoreOutcome.ret fs1 none ∧
          fs1.file path = some "[]" ∧ ∀ p, p ≠ path → fs1.file p = fs.file p)
    ∧ (∀ content, fs.file path = some content → content ≠ "" →
        CreateStoreFileIfNeeded env fs path
          = StoreOutcome.ret fs (some (Err.new "StoreAlreadyExist"))) := by
  constructor
  · intro hfile hc hw
    refine ⟨fs.write path "[]", ?_, by simp [FileSys.write], ?_⟩
    · rcases hfile with h | h
      · simp [CreateStoreFileIfNeeded, osStat, hstat, h, IsNotExist, hc, hw]
      · have hz : ("" : String).utf8ByteSize = 0 := rfl
        simp [CreateStoreFileIfNeeded, osStat, hstat, h, fiSize, Except.map, hz, hc, hw]
    · intro p hp
      simp [FileSys.write, hp]
  · intro content hfile hne
    have hz : content.utf8ByteSize ≠ 0 := fun h => hne ((utf8ByteSize_eq_zero content).mp h)
    have hb : (content.utf8ByteSize == 0) = false := by simpa using hz
    simp [CreateStoreFileIfNeeded, osStat, hstat, hfile, fiSize, Except.map, hz, hb]

/-- C17, instance: a path without file, the path of an empty file and the path of a
store file that holds the empty array. -/
theorem CreateStoreFileIfNeeded_init_witness :
    (∃ fs1, CreateStoreFileIfNeeded storeOk sampleFiles "new.json" = StoreOutcome.ret fs1 none ∧
      fs1.file "new.json" = some "[]" ∧ ∀ p, p ≠ "new.json" → fs1.file p = sampleFiles.file p)
    ∧ (∃ fs1, CreateStoreFileIfNeeded storeOk sampleFiles "empty.json" = StoreOutcome.ret fs1 none ∧
      fs1.file "empty.json" = some "[]" ∧
      ∀ p, p ≠ "empty.json" → fs1.file p = sampleFiles.file p)
    ∧ CreateStoreFileIfNeeded storeOk sampleFiles "td.json"
        = StoreOutcome.ret sampleFiles (some (Err.new "StoreAlreadyExist")) :=
  ⟨(CreateStoreFileIfNeeded_init storeOk sampleFiles "new.json" rfl).1 (Or.inl (by decide))
      rfl rfl,
    (CreateStoreFileIfNeeded_init storeOk sampleFiles "empty.json" rfl).1 (Or.inr (by decide))
      rfl rfl,
    (CreateStoreFileIfNeeded_init storeOk sampleFiles "td.json" rfl).2 "[]" (by decide)
      (by decide)⟩

/-- C18, the code at the failing input: when `os.Stat` fails with an error other than
not-found, the returned file info is nil, the left operand of `||` is false, and
`fi.Size()` panics before `return err` is reached; no file is created or
overwritten. -/
theorem CreateStoreFileIfNeeded_stat_denied_panics (fs : FileSys) (path : String) :
    osStat storeDenied fs path = (none, some (Err.sys 13))
    ∧ IsNotExist (Err.sys 13) = false
    ∧ CreateStoreFileIfNeeded storeDenied fs path = StoreOutcome.panic Panic.nilDeref fs :=
  ⟨rfl, rfl, CreateStoreFileIfNeeded_stat_error storeDenied fs path (Err.sys 13) rfl
    (by decide)⟩

/-- C19: for every non-empty collection with pairwise distinct ids, if exactly one of
idA and idB is carried by an entry, at position p, `Swap(idA, idB)` returns; that
entry then carries the absent id and stands at position 0, the entry that was at
position 0 stands at p, and every other entry is unchanged.  On an empty
collection `Swap` panics with an index out of range. -/
theorem Swap_one_id_missing (J : Codec) (env : Env) (c : Collection) (d : Disk)
    (idA idB : Int) (p : Nat) (t : Todo) (hnd : (ids c).Nodup) (ht : c.Todos[p]? = some t)
    (hone : (t.Id = idA ∧ ∀ u ∈ c.Todos, u.Id ≠ idB) ∨ (t.Id = idB ∧ ∀ u ∈ c.Todos, u.Id ≠ idA)) :
    (∃ c1 d1 err, Swap J env c d idA idB = Outcome.ret c1 d1 err ∧
      c1.Todos.length = c.Todos.length ∧
      c1.Todos[0]? = some { t with Id := if t.Id = idA then idB else idA } ∧
      (p ≠ 0 → c1.Todos[p]? = c.Todos[0]?) ∧
      ∀ q, q ≠ 0 → q ≠ p → c1.Todos[q]? = c.Todos[q]?)
    ∧ Swap J env { Todos := [] } d idA idB = Outcome.panic Panic.indexOutOfRange d := by
  refine ⟨?_, Swap_empty J env d idA idB⟩
  have hmem := List.getElem?_mem ht
  obtain ⟨c1, d1, err, hs, hlen, hq⟩ := Swap_nonempty J env c d idA idB
    (ne_nil_of_getElem? _ p t ht)
  have hfix : ∀ q u, q ≠ p → c.Todos[q]? = some u → relabel idA idB u = u := by
    intro q u hqp hu
    rcases hone with ⟨hid, habs⟩ | ⟨hid, habs⟩
    · exact relabel_of_ne idA idB u
        (fun h => hqp (nodup_pos_unique c.Todos hnd q p u t hu ht (h.trans hid.symm)))
        (habs u (List.getElem?_mem hu))
    · exact relabel_of_ne idA idB u (habs u (List.getElem?_mem hu))
        (fun h => hqp (nodup_pos_unique c.Todos hnd q p u t hu ht (h.trans hid.symm)))
  have hfixq : ∀ q, q ≠ p → (c.Todos[q]?).map (relabel idA idB) = c.Todos[q]? := by
    intro q hqp
    cases hcq : c.Todos[q]? with
    | none => rfl
    | some u => simp [hfix q u hqp hcq]
  have hrt : relabel idA idB t = { t with Id := if t.Id = idA then idB else idA } := by
    rcases hone with ⟨hid, habs⟩ | ⟨hid, habs⟩
    · simp [relabel, swapId, hid]
    · have hne : t.Id ≠ idA := habs t hmem
      simp [relabel, swapId, hid, hne]
  rcases hone with ⟨hid, habs⟩ | ⟨hid, habs⟩
  · have hposA := swap_posA_present idA idB c.Todos hnd p t ht hid
    have hposB := swap_posB_default idA idB c.Todos (fun u hu => Or.inr (habs u hu))
    rw [hposA, hposB] at hq
    refine ⟨c1, d1, err, hs, hlen, ?_, ?_, ?_⟩
    · rw [hq 0, if_pos rfl, ht, Option.map_some', hrt]
    · intro hp
      rw [hq p, if_neg hp, if_pos rfl, hfixq 0 (Ne.symm hp)]
    · intro q h0 hp
      rw [hq q, if_neg h0, if_neg hp, hfixq q hp]
  · have hposB := swap_posB_present idA idB c.Todos hnd p t ht hid
      (fun h => habs t hmem (hid.trans h.symm))
    have hposA := swap_posA_absent idA idB c.Todos habs
    rw [hposA, hposB] at hq
    refine ⟨c1, d1, err, hs, hlen, ?_, ?_, ?_⟩
    · by_cases hp : p = 0
      · subst hp
        rw [hq 0, if_pos rfl, ht, Option.map_some', hrt]
      · rw [hq 0, if_neg (Ne.symm hp), if_pos rfl, ht, Option.map_some', hrt]
    · intro hp
      rw [hq p, if_pos rfl, hfixq 0 (Ne.symm hp)]
    · intro q h0 hp
      rw [hq q, if_neg hp, if_neg h0, hfixq q hp]

/-- C19, instance: on the sample collection the id 2 is carried at position 1 and the
id 9 is not carried. -/
theorem Swap_one_id_missing_witness :
    (∃ c1 d1 err, Swap refCodec envOk sampleTodos diskInit 2 9 = Outcome.ret c1 d1 err ∧
      c1.Todos.length = sampleTodos.Todos.length ∧
      c1.Todos[0]? = some { (⟨2, "call Bob", "done", "t1"⟩ : Todo) with
        Id := if (⟨2, "call Bob", "done", "t1"⟩ : Todo).Id = 2 then 9 else 2 } ∧
      ((1 : Nat) ≠ 0 → c1.Todos[1]? = sampleTodos.Todos[0]?) ∧
      ∀ q, q ≠ 0 → q ≠ 1 → c1.Todos[q]? = sampleTodos.Todos[q]?)
    ∧ Swap refCodec envOk { Todos := [] } diskInit 2 9
        = Outcome.panic Panic.indexOutOfRange diskInit :=
  Swap_one_id_missing refCodec envOk sampleTodos diskInit 2 9 1 ⟨2, "call Bob", "done", "t1"⟩
    (by decide) rfl (Or.inl ⟨rfl, by decide⟩)

/-- C20, the code at the failing input: the ids 1 and 2 are distinct, the id 2 is carried
at position 1, and `Swap(2, 2)` returns with the two entries exchanged, because
`case idB` is never reached and position B keeps its initial value 0. -/
theorem Swap_same_id_moves_entry :
    (ids sampleTodos).Nodup ∧
    ∃ d1 err, Swap refCodec envOk sampleTodos diskInit 2 2
        = Outcome.ret
            { Todos := [⟨2, "call Bob", "done", "t1"⟩, ⟨1, "buy milk", "pending", "t0"⟩] }
            d1 err
      ∧ ({ Todos := [⟨2, "call Bob", "done", "t1"⟩, ⟨1, "buy milk", "pending", "t0"⟩] } :
          Collection) ≠ sampleTodos :=
  ⟨by decide, _, _, rfl, by decide⟩

end Td
